import Mathlib

/-!
Verification development for the gitversion-go repository.

The Go sources are shallowly embedded as Lean definitions:

* `pkg/semver/version.go`      → namespace `Gitversion.Semver`
* `pkg/config/config.go`       → namespace `Gitversion.Config`
* `internal/git/repository.go` → namespace `Gitversion.Git`
* `internal/version/*.go`      → namespace `Gitversion.Calc`
  (the strategy-based calculator and `strategies.go`)

Modelling conventions:

* Go `int` version components are modelled as `Nat`: every version the
  program constructs comes from parsing `\d+` digit runs or from
  increments of such values, so the components are always non-negative,
  and none of the verified operations can overflow a 64-bit integer for
  any value the program can actually build.
* Go strings are Lean `String`s; Go byte-wise string comparison agrees
  with Lean's `List Char` lexicographic order on UTF-8 encoded text,
  since UTF-8 preserves code-point order.
* Effectful repository queries (`git` process calls) are modelled as
  fields of a `Repository` record.  A method that can return a non-nil
  Go `error` becomes an `Except String` valued field; a method that
  swallows its error and returns a default (as many in `repository.go`
  do) becomes a plain field.
* Regular expressions from the source are compiled by hand to
  character-list scanners with Go/RE2 leftmost-first semantics.
  Case-insensitive matching (`(?i)`) is modelled by ASCII lowercasing,
  which agrees with RE2 on all ASCII inputs.
-/

namespace Gitversion

/-! ## Character and list helpers -/

/-- Decidable prefix test on character lists (semantics of Go
`strings.HasPrefix`, receiver second). -/
def charsLeadWith : List Char → List Char → Bool
  | [], _ => true
  | _ :: _, [] => false
  | a :: p, b :: l => a = b && charsLeadWith p l

/-- Go `strings.HasPrefix s p`. -/
def strStartsWith (s p : String) : Bool :=
  charsLeadWith p.toList s.toList

/-- Decidable substring test on character lists (Go `strings.Contains`). -/
def charsContain (needle : List Char) : List Char → Bool
  | [] => charsLeadWith needle []
  | c :: rest => charsLeadWith needle (c :: rest) || charsContain needle rest

/-- Go `strings.Contains s sub`. -/
def strContains (s sub : String) : Bool :=
  charsContain sub.toList s.toList

/-- Byte-wise lexicographic order on character lists: the semantics of
Go's `<` on strings (for valid UTF-8, byte order coincides with
code-point order).  Structural, so the kernel can evaluate it. -/
def charsLt : List Char → List Char → Bool
  | [], [] => false
  | [], _ :: _ => true
  | _ :: _, [] => false
  | a :: x, b :: y =>
    if a.toNat < b.toNat then true
    else if b.toNat < a.toNat then false
    else charsLt x y

/-- Go string `<`. -/
def strLt (x y : String) : Bool := charsLt x.toList y.toList

def splitOnChar (sep : Char) : List Char → List (List Char)
  | [] => [[]]
  | c :: rest =>
    match splitOnChar sep rest with
    | [] => [[]]
    | s :: ss => if c = sep then [] :: s :: ss else (c :: s) :: ss

/-- Decimal digit characters of `n` (big-endian), with structural fuel so
that the kernel can evaluate it.  `digitsAux fuel n` is the decimal
rendering of `n` whenever `n < fuel`. -/
def digitsAux : Nat → Nat → List Char
  | 0, _ => []
  | fuel + 1, n =>
    if n < 10 then [Nat.digitChar n]
    else digitsAux fuel (n / 10) ++ [Nat.digitChar (n % 10)]

/-- Decimal rendering of a natural number, as produced by Go's `%d`
format verb for non-negative values. -/
def natRepr (n : Nat) : List Char := digitsAux (n + 1) n

/-- Decimal rendering as a `String`. -/
def natReprS (n : Nat) : String := (natRepr n).asString

/-- Numeric value of a digit-character list, accumulated left to right
(the semantics of Go `strconv.Atoi` on a digit run, ignoring overflow,
which cannot occur for values the program constructs). -/
def digitsToNat (ds : List Char) : Nat :=
  ds.foldl (fun a c => 10 * a + (c.toNat - 48)) 0

/-! ## `pkg/semver/version.go` -/

namespace Semver

/-- The `semver.Version` struct.  The Go `int` components are modelled as
`Nat` (see the header comment). -/
structure Version where
  Major : Nat
  Minor : Nat
  Patch : Nat
  PreRelease : String
  Build : String
  deriving DecidableEq, Repr

/-- Character class `[a-zA-Z0-9.-]` of the pre-release group in
`semverPattern`. -/
def isPreReleaseChar (c : Char) : Bool :=
  c.isAlphanum || c = '.' || c = '-'

/-- Character class `[a-zA-Z0-9.+-]` of the build group in
`semverPattern`. -/
def isBuildChar (c : Char) : Bool :=
  c.isAlphanum || c = '.' || c = '+' || c = '-'

/-- The optional leading `v?` of `semverPattern`.  A leading `v` must be
consumed by the optional group, since the next pattern element is a
digit. -/
def stripLeadV (l : List Char) : List Char :=
  match l with
  | c :: rest => if c = 'v' then rest else l
  | [] => l

/-- One `(\d+)` group of `semverPattern` followed by a literal `.`:
returns the numeric value and the remaining input.  The digit run is
scanned greedily; since `.` is not a digit, greedy maximal munch is
equivalent to the backtracking search. -/
def parseNumDot (l : List Char) : Option (Nat × List Char) :=
  let ds := l.takeWhile Char.isDigit
  if ds = [] then none else
  match l.dropWhile Char.isDigit with
  | '.' :: r => some (digitsToNat ds, r)
  | _ => none

/-- The third `(\d+)` group of `semverPattern` (not followed by a dot). -/
def parseNumEnd (l : List Char) : Option (Nat × List Char) :=
  let ds := l.takeWhile Char.isDigit
  if ds = [] then none
  else some (digitsToNat ds, l.dropWhile Char.isDigit)

/-- The suffix `(?:-([a-zA-Z0-9.-]+))?(?:\+([a-zA-Z0-9.+-]+))?$` of
`semverPattern`: returns the captured pre-release and build strings
(empty when the group is absent).  Each character class excludes the
character that must follow its group (`+` is not a pre-release
character, and the build group must reach the end of the input), so
greedy maximal munch is equivalent to the backtracking search. -/
def parseTailGroups (r : List Char) : Option (String × String) :=
  match r with
  | [] => some ("", "")
  | '-' :: r6 =>
    let pre := r6.takeWhile isPreReleaseChar
    if pre = [] then none else
    match r6.dropWhile isPreReleaseChar with
    | [] => some (pre.asString, "")
    | '+' :: r8 =>
      let bd := r8.takeWhile isBuildChar
      if bd = [] then none
      else if r8.dropWhile isBuildChar = [] then some (pre.asString, bd.asString)
      else none
    | _ => none
  | '+' :: r6 =>
    let bd := r6.takeWhile isBuildChar
    if bd = [] then none
    else if r6.dropWhile isBuildChar = [] then some ("", bd.asString)
    else none
  | _ => none

/-- The regular expression
`^v?(\d+)\.(\d+)\.(\d+)(?:-([a-zA-Z0-9.-]+))?(?:\+([a-zA-Z0-9.+-]+))?$`
from `version.go`, compiled by hand to a deterministic character-list
scanner (see the component scanners for why determinism is faithful). -/
def parseChars (cs0 : List Char) : Option Version :=
  match parseNumDot (stripLeadV cs0) with
  | none => none
  | some (major, r2) =>
    match parseNumDot r2 with
    | none => none
    | some (minor, r4) =>
      match parseNumEnd r4 with
      | none => none
      | some (patch, r5) =>
        match parseTailGroups r5 with
        | none => none
        | some (pre, bd) => some ⟨major, minor, patch, pre, bd⟩

/-- `semver.Parse`.  The Go function returns `(*Version, error)`; the
error case is modelled as `none` (the `strconv.Atoi` calls on the
captured digit runs cannot fail for in-range values, see header). -/
def Parse (version : String) : Option Version :=
  parseChars version.toList

/-- `Version.String()`: renders `major.minor.patch[-prerelease][+build]`. -/
def Version.toStr (v : Version) : String :=
  (natRepr v.Major ++ ('.' :: (natRepr v.Minor ++ ('.' :: (natRepr v.Patch
    ++ ((if v.PreRelease = "" then [] else '-' :: v.PreRelease.toList)
      ++ (if v.Build = "" then [] else '+' :: v.Build.toList))))))).asString

/-- `Version.IncrementMajor()` (value-passing form of the Go mutation). -/
def Version.IncrementMajor (v : Version) : Version :=
  { v with Major := v.Major + 1, Minor := 0, Patch := 0 }

/-- `Version.IncrementMinor()`. -/
def Version.IncrementMinor (v : Version) : Version :=
  { v with Minor := v.Minor + 1, Patch := 0 }

/-- `Version.IncrementPatch()`. -/
def Version.IncrementPatch (v : Version) : Version :=
  { v with Patch := v.Patch + 1 }

/-- `Version.Compare`: -1 if `v < other`, 0 if equal, 1 if `v > other`.
The Go receiver also handles a nil argument (returning 1); in the value
embedding there is no nil, which matches every call site in the
repository. -/
def Version.Compare (v other : Version) : Int :=
  if v.Major < other.Major then -1
  else if v.Major > other.Major then 1
  else if v.Minor < other.Minor then -1
  else if v.Minor > other.Minor then 1
  else if v.Patch < other.Patch then -1
  else if v.Patch > other.Patch then 1
  else if v.PreRelease = "" ∧ other.PreRelease ≠ "" then 1
  else if v.PreRelease ≠ "" ∧ other.PreRelease = "" then -1
  else if v.PreRelease = other.PreRelease then 0
  else if strLt v.PreRelease other.PreRelease then -1
  else 1

/-- `Version.GreaterThan`. -/
def Version.GreaterThan (v other : Version) : Bool :=
  v.Compare other > 0

/-- `Version.Copy` (deep copy; the identity in the value embedding). -/
def Version.Copy (v : Version) : Version :=
  { Major := v.Major, Minor := v.Minor, Patch := v.Patch,
    PreRelease := v.PreRelease, Build := v.Build }

/-- `semver.SanitizeBranchName`: replaces every character outside
`[a-zA-Z0-9]` by `-`. -/
def SanitizeBranchName (branch : String) : String :=
  (branch.toList.map fun c => if c.isAlphanum then c else '-').asString

/-- The strict order on pre-release labels implemented by the tail of
`Compare`: an empty label (no pre-release) is greater than any label,
and two non-empty labels compare lexicographically. -/
def PreLt (x y : String) : Prop :=
  (x ≠ "" ∧ y = "") ∨ (x ≠ "" ∧ y ≠ "" ∧ strLt x y = true)

/-- The strict version order implemented by `Compare`: lexicographic on
major, minor, patch, then `PreLt` on pre-release labels.  Build metadata
does not participate. -/
def VLt (a b : Version) : Prop :=
  a.Major < b.Major ∨ (a.Major = b.Major ∧
    (a.Minor < b.Minor ∨ (a.Minor = b.Minor ∧
      (a.Patch < b.Patch ∨ (a.Patch = b.Patch ∧
        PreLt a.PreRelease b.PreRelease)))))

/-- Field-wise equality up to build metadata. -/
def VEq (a b : Version) : Prop :=
  a.Major = b.Major ∧ a.Minor = b.Minor ∧ a.Patch = b.Patch ∧
    a.PreRelease = b.PreRelease

end Semver

/-! ## `pkg/config/config.go` -/

namespace Config

/-- `config.PreventIncrementConfiguration`. -/
structure PreventIncrementConfiguration where
  OfMergedBranch : Bool
  WhenCurrentCommitTagged : Bool
  WhenBranchMerged : Bool
  deriving DecidableEq, Repr

/-- `config.BranchConfiguration`.  The Go `IncrementStrategy` and
`DeploymentMode` are string types; their constants (`"Patch"`,
`"Minor"`, ...) stay strings here.  A nil `PreventIncrement` pointer is
`none`. -/
structure BranchConfiguration where
  Mode : String
  Label : String
  Increment : String
  PreventIncrement : Option PreventIncrementConfiguration
  TrackMergeTarget : Bool
  TrackMergeMessage : Bool
  Regex : String
  SourceBranches : List String
  IsSourceBranchFor : List String
  TracksReleaseBranches : Bool
  IsReleaseBranch : Bool
  IsMainBranch : Bool
  PreReleaseWeight : Int
  deriving DecidableEq, Repr

/-- The fields of `config.Config` the version-resolution engine reads.
The Go `Branches` map is modelled as an association list; a list order
stands for one (arbitrary but fixed) enumeration order of the Go map,
matching the fact that `range` order over the map is unspecified. -/
structure Config where
  NextVersion : String
  Mode : String
  Increment : String
  TagPrefix : String
  Strategies : List String
  Branches : List (String × BranchConfiguration)
  deriving DecidableEq, Repr

/-- `config.matchesRegex`: the hand-rolled pattern matcher from
`config.go` (it interprets only the handful of patterns appearing in the
default configuration, by string tests). -/
def matchesRegex (branchName pattern : String) : Bool :=
  if pattern = "^(master|main)$" then
    branchName = "master" || branchName = "main"
  else if pattern = "^dev(elop)?(ment)?$" then
    branchName = "dev" || branchName = "develop" || branchName = "development"
  else if strContains pattern "releases?" then
    strStartsWith branchName "release/" || strStartsWith branchName "releases/"
  else if strContains pattern "features?" then
    strStartsWith branchName "feature/" || strStartsWith branchName "features/"
  else if strContains pattern "hotfix" then
    strStartsWith branchName "hotfix/" || strStartsWith branchName "hotfixes/"
  else if strContains pattern "support" then
    strStartsWith branchName "support/"
  else if strContains pattern "pull" then
    strStartsWith branchName "pull/" || strStartsWith branchName "pr/"
  else
    false

/-- The built-in default policy returned by `GetBranchConfiguration`
when nothing matches. -/
def defaultBranchConfiguration : BranchConfiguration :=
  { Mode := "ManualDeployment"
    Label := "{BranchName}"
    Increment := "Patch"
    PreventIncrement := some ⟨false, false, false⟩
    TrackMergeTarget := false
    TrackMergeMessage := false
    Regex := ""
    SourceBranches := []
    IsSourceBranchFor := []
    TracksReleaseBranches := false
    IsReleaseBranch := false
    IsMainBranch := false
    PreReleaseWeight := 30000 }

/-- Go map lookup `c.Branches[branchName]` on the association list. -/
def lookupBranch (bs : List (String × BranchConfiguration)) (name : String) :
    Option BranchConfiguration :=
  (bs.find? fun p => p.1 == name).map (·.2)

/-- `Config.GetBranchConfiguration`: exact name match, then regex match,
then `"<name>/"` prefix match, then the built-in default.  (Map entries
are modelled as values, so the nil-entry check in the caller is
unreachable.) -/
def GetBranchConfiguration (c : Config) (branchName : String) : BranchConfiguration :=
  match lookupBranch c.Branches branchName with
  | some cfg => cfg
  | none =>
    match c.Branches.find? (fun p => p.2.Regex != "" && matchesRegex branchName p.2.Regex) with
    | some p => p.2
    | none =>
      match c.Branches.find? (fun p => strStartsWith branchName (p.1 ++ "/")) with
      | some p => p.2
      | none => defaultBranchConfiguration

end Config

/-! ## `internal/git/repository.go` -/

namespace Git

/-- `git.Commit`. -/
structure Commit where
  SHA : String
  Message : String
  Date : String
  deriving DecidableEq, Repr

/-- `git.IncrementType` (a string type in Go with exactly these three
constants: `"patch"`, `"minor"`, `"major"`). -/
inductive IncrementType where
  | patch
  | minor
  | major
  deriving DecidableEq, Repr

/-- State of a `git.Repository` as observed through its query methods.
A method whose Go implementation can return a non-nil error is an
`Except String` field; the methods that swallow errors and return
defaults (`GetCurrentBranch` → `"HEAD"`, `GetSHA`/`GetShortSHA` →
`"unknown"`, `GetLatestTag` → `""`, `GetTagsOnCurrentBranch` → `[]`,
`GetCommitCountSinceTag` → `0`, `GetCommitsSinceTag` → `[]`) are plain
fields holding whatever value the method yields. -/
structure Repository where
  currentBranch : String
  sha : String
  shortSHA : String
  latestTag : String
  tagsOnCurrentBranch : List String
  commitSHAForTag : String → Except String String
  branches : Except String (List String)
  mergeBase : String → String → Except String String
  commitHistory : Nat → Except String (List Commit)
  commitCountSinceTag : String → Nat
  commitsSinceTag : String → List String

/-- ASCII lowercasing of a message, the model of `(?i)` matching. -/
def lowerChars (s : String) : List Char :=
  s.toList.map Char.toLower

/-- RE2 `\s`: `[\t\n\f\r ]`. -/
def goSpace (c : Char) : Bool :=
  c = ' ' || c = '\t' || c = '\n' || c = '\x0c' || c = '\r'

/-- Does a predicate match at the start of some suffix of the input
(the search semantics of an unanchored Go regexp `MatchString`)? -/
def anySuffix (f : List Char → Bool) : List Char → Bool
  | [] => f []
  | c :: rest => f (c :: rest) || anySuffix f rest

/-- `(?i)\+semver:\s*(breaking|major)` applied to a lowercased message.
`breaking`/`major` do not start with a space character, so the greedy
`\s*` is deterministic. -/
def semverMajorPat (l : List Char) : Bool :=
  anySuffix (fun r =>
    charsLeadWith "+semver:".toList r &&
      (let t := (r.drop 8).dropWhile goSpace
       charsLeadWith "breaking".toList t || charsLeadWith "major".toList t)) l

/-- `(?i)\+semver:\s*(feature|minor)`. -/
def semverMinorPat (l : List Char) : Bool :=
  anySuffix (fun r =>
    charsLeadWith "+semver:".toList r &&
      (let t := (r.drop 8).dropWhile goSpace
       charsLeadWith "feature".toList t || charsLeadWith "minor".toList t)) l

/-- `(?i)BREAKING\s*CHANGE`. -/
def breakingChangePat (l : List Char) : Bool :=
  anySuffix (fun r =>
    charsLeadWith "breaking".toList r &&
      charsLeadWith "change".toList ((r.drop 8).dropWhile goSpace)) l

/-- Backtracking search for `)!:` after the opening parenthesis of
`feat(...)!:`; the characters consumed by `.+` may be anything except a
newline. -/
def scanCloseBang : List Char → Bool
  | ')' :: '!' :: ':' :: _ => true
  | c :: rest => decide (c ≠ '\n') && scanCloseBang rest
  | [] => false

/-- Backtracking search for `):` after the opening parenthesis of
`feat(...):`. -/
def scanCloseColon : List Char → Bool
  | ')' :: ':' :: _ => true
  | c :: rest => decide (c ≠ '\n') && scanCloseColon rest
  | [] => false

/-- `(?i)^feat(\(.+\))?!:` (anchored) on a lowercased message. -/
def conventionalBreakingPat (l : List Char) : Bool :=
  charsLeadWith "feat".toList l &&
    (charsLeadWith "!:".toList (l.drop 4) ||
      match l.drop 4 with
      | '(' :: c :: rest => decide (c ≠ '\n') && scanCloseBang rest
      | _ => false)

/-- `(?i)^feat(\(.+\))?:` (anchored) on a lowercased message. -/
def conventionalFeaturePat (l : List Char) : Bool :=
  charsLeadWith "feat".toList l &&
    (charsLeadWith ":".toList (l.drop 4) ||
      match l.drop 4 with
      | '(' :: c :: rest => decide (c ≠ '\n') && scanCloseColon rest
      | _ => false)

/-- The major-bump test applied to each commit string inside
`DetectVersionIncrement`'s loop. -/
def isMajorTrigger (msg : String) : Bool :=
  semverMajorPat (lowerChars msg) || breakingChangePat (lowerChars msg) ||
    conventionalBreakingPat (lowerChars msg)

/-- The minor-bump test applied to each commit string inside
`DetectVersionIncrement`'s loop. -/
def isMinorTrigger (msg : String) : Bool :=
  semverMinorPat (lowerChars msg) || conventionalFeaturePat (lowerChars msg)

/-- The loop of `DetectVersionIncrement`: returns `major` as soon as any
message matches a major trigger; otherwise records `minor` when a minor
trigger matches; otherwise the accumulator (initially `patch`) stands.
(The Go guard `increment != IncrementMajor` inside the loop is vacuous
because the function returns immediately on major.) -/
def detectLoop : List String → IncrementType → IncrementType
  | [], inc => inc
  | msg :: rest, inc =>
    if isMajorTrigger msg then .major
    else if isMinorTrigger msg then detectLoop rest .minor
    else detectLoop rest inc

/-- Commit-message analysis core of `Repository.DetectVersionIncrement`
(the method obtains the commit strings from `GetCommitsSinceTag`, which
never fails, and then runs this loop; its error return is always nil). -/
def DetectVersionIncrementFromMessages (commits : List String) : IncrementType :=
  detectLoop commits .patch

/-- `Repository.DetectVersionIncrement`. -/
def Repository.DetectVersionIncrement (r : Repository) (tag : String) : IncrementType :=
  DetectVersionIncrementFromMessages (r.commitsSinceTag tag)

end Git

/-! ## `internal/version/calculator.go` and the strategies file -/

namespace Calc

/-- `version.WorkflowType` is a Go string type; the constants. -/
def GitFlow : String := "gitflow"

def GitHubFlow : String := "githubflow"

def Trunk : String := "trunk"

/-- `version.BranchType` is a Go string type; the constants. -/
def Main : String := "main"

def Develop : String := "develop"

def Feature : String := "feature"

def Release : String := "release"

def Hotfix : String := "hotfix"

def Support : String := "support"

def Unknown : String := "unknown"

/-- `Calculator.getBranchType`. -/
def getBranchType (branch workflow : String) : String :=
  if workflow = GitFlow then
    if branch = "main" || branch = "master" then Main
    else if branch = "develop" then Develop
    else if strStartsWith branch "feature/" then Feature
    else if strStartsWith branch "release/" then Release
    else if strStartsWith branch "hotfix/" then Hotfix
    else if strStartsWith branch "support/" then Support
    else Unknown
  else if workflow = GitHubFlow then
    if branch = "main" || branch = "master" then Main
    else Feature
  else if workflow = Trunk then Main
  else Unknown

/-- `version.BaseVersion` (the `*semver.Version` pointer becomes a
value). -/
structure BaseVersion where
  SemanticVersion : Semver.Version
  Source : String
  ShouldIncrement : Bool
  BaseVersionSource : String
  deriving DecidableEq, Repr

/-- The `version.VersionStrategies` bitmask constants (`1 << iota`
starting after `None = 0`). -/
def Fallback : Nat := 2

def ConfiguredNextVersion : Nat := 4

def MergeMessage : Nat := 8

def TaggedCommit : Nat := 16

def TrackReleaseBranches : Nat := 32

def VersionInBranchName : Nat := 64

def Mainline : Nat := 128

/-- Aliases used inside structure declarations whose `Config` field
shadows the `Config` namespace. -/
abbrev ConfigRecord := Config.Config

abbrev BranchConfigurationRecord := Config.BranchConfiguration

/-- `version.VersionContext` (`BranchConfig` is a possibly-nil
pointer). -/
structure VersionContext where
  Repository : Git.Repository
  Config : ConfigRecord
  CurrentBranch : String
  CurrentCommit : String
  BranchConfig : Option BranchConfigurationRecord
  Strategies : Nat
  NextVersion : String

/-- `FallbackStrategy.GetBaseVersions`. -/
def fallbackGetBaseVersions (_ctx : VersionContext) :
    Except String (List BaseVersion) :=
  .ok [⟨⟨0, 0, 0, "", ""⟩, "Fallback strategy", true, ""⟩]

/-- `ConfiguredNextVersionStrategy.GetBaseVersions`. -/
def configuredNextVersionGetBaseVersions (ctx : VersionContext) :
    Except String (List BaseVersion) :=
  let nextVersion := if ctx.NextVersion = "" then ctx.Config.NextVersion
    else ctx.NextVersion
  if nextVersion = "" then .ok []
  else
    match Semver.Parse nextVersion with
    | none => .error ("invalid next-version: invalid semver format: " ++ nextVersion)
    | some v =>
      .ok [⟨v, "Configured next version: " ++ nextVersion, false, ""⟩]

/-- `TaggedCommitStrategy.GetBaseVersions`.  `GetTagsOnCurrentBranch`
cannot fail (it swallows its error), so the strategy's tag-query error
branch is unreachable; a tag that fails semver parsing, or whose commit
lookup fails, is skipped. -/
def taggedCommitGetBaseVersions (ctx : VersionContext) :
    Except String (List BaseVersion) :=
  .ok (ctx.Repository.tagsOnCurrentBranch.filterMap fun tag =>
    match Semver.Parse tag with
    | none => none
    | some v =>
      match ctx.Repository.commitSHAForTag tag with
      | .error _ => none
      | .ok sha => some ⟨v, "Tag '" ++ tag ++ "'", true, sha⟩)

/-! The two regular expressions of the merge-message / branch-name
strategies, compiled to scanners:
`(?i)merge.*?(?:branch\s+)?(?:'([^']+)'|"([^"]+)"|(\S+))` and
`(\d+)\.(\d+)\.(\d+)(?:-([0-9A-Za-z\-]+(?:\.[0-9A-Za-z\-]+)*))?`. -/

/-- Case-insensitive prefix test: the pattern (given lowercased) against
original-case input. -/
def charsLeadWithCI : List Char → List Char → Bool
  | [], _ => true
  | _ :: _, [] => false
  | a :: p, b :: l => a = b.toLower && charsLeadWithCI p l

/-- RE2 `\S` (not `[\t\n\f\r ]`). -/
def notSpace (c : Char) : Bool := !(Git.goSpace c)

/-- The branch-name alternation `(?:'([^']+)'|"([^"]+)"|(\S+))`,
returning the captured text.  The quoted alternatives are deterministic
(`[^']+` must stop at the closing quote); when a quoted alternative
fails, backtracking falls through to `\S+`. -/
def mmAlt (r : List Char) : Option (List Char) :=
  (match r with
   | '\'' :: rest =>
     let body := rest.takeWhile fun c => decide (c ≠ '\'')
     if body ≠ [] ∧ (rest.dropWhile fun c => decide (c ≠ '\'')) ≠ [] then some body
     else none
   | _ => none) <|>
  (match r with
   | '"' :: rest =>
     let body := rest.takeWhile fun c => decide (c ≠ '"')
     if body ≠ [] ∧ (rest.dropWhile fun c => decide (c ≠ '"')) ≠ [] then some body
     else none
   | _ => none) <|>
  (let w := r.takeWhile notSpace
   if w ≠ [] then some w else none)

/-- The optional `(?:branch\s+)?` (case-insensitive, preferred present)
followed by the alternation. -/
def mmBranchAlt (r : List Char) : Option (List Char) :=
  (if charsLeadWithCI "branch".toList r then
    let t := r.drop 6
    let sp := t.takeWhile Git.goSpace
    if sp ≠ [] then mmAlt (t.dropWhile Git.goSpace) else none
   else none) <|> mmAlt r

/-- The lazy `.*?` scan after the `merge` keyword: try the continuation
at each position, consuming only non-newline characters. -/
def mmScan : List Char → Option (List Char)
  | [] => mmBranchAlt []
  | c :: rest =>
    mmBranchAlt (c :: rest) <|>
      (if c ≠ '\n' then mmScan rest else none)

/-- Leftmost-first match of `mergePattern` against a commit message,
returning the captured branch name (original case). -/
def mergeMatch : List Char → Option (List Char)
  | [] => none
  | c :: rest =>
    (if charsLeadWithCI "merge".toList (c :: rest) then mmScan ((c :: rest).drop 5)
     else none) <|> mergeMatch rest

/-- `[0-9A-Za-z\-]`. -/
def isVerChar (c : Char) : Bool := c.isAlphanum || c = '-'

/-- The `(?:\.[0-9A-Za-z\-]+)*` iteration of `versionPattern`, greedy.
Structural fuel (one unit per consumed character bounds the depth). -/
def verMoreAux : Nat → List Char → List Char
  | 0, _ => []
  | fuel + 1, r =>
    match r with
    | '.' :: t =>
      let s := t.takeWhile isVerChar
      if s = [] then []
      else '.' :: (s ++ verMoreAux fuel (t.dropWhile isVerChar))
    | _ => []

/-- `versionPattern` match attempt anchored at the current position:
`(\d+)\.(\d+)\.(\d+)(?:-([0-9A-Za-z\-]+(?:\.[0-9A-Za-z\-]+)*))?`. -/
def verAt (l : List Char) : Option (Nat × Nat × Nat × String) :=
  let d1 := l.takeWhile Char.isDigit
  if d1 = [] then none else
  match l.dropWhile Char.isDigit with
  | '.' :: r2 =>
    let d2 := r2.takeWhile Char.isDigit
    if d2 = [] then none else
    match r2.dropWhile Char.isDigit with
    | '.' :: r4 =>
      let d3 := r4.takeWhile Char.isDigit
      if d3 = [] then none else
      let rest := r4.dropWhile Char.isDigit
      let pre : List Char :=
        match rest with
        | '-' :: r5 =>
          let s1 := r5.takeWhile isVerChar
          if s1 = [] then []
          else s1 ++ verMoreAux r5.length (r5.dropWhile isVerChar)
        | _ => []
      some (digitsToNat d1, digitsToNat d2, digitsToNat d3, pre.asString)
    | _ => none
  | _ => none

/-- Leftmost-first search of `versionPattern` in a string. -/
def findVersion : List Char → Option (Nat × Nat × Nat × String)
  | [] => none
  | c :: rest => verAt (c :: rest) <|> findVersion rest

/-- `MergeMessageStrategy.GetBaseVersions`. -/
def mergeMessageGetBaseVersions (ctx : VersionContext) :
    Except String (List BaseVersion) :=
  match ctx.BranchConfig with
  | none => .ok []
  | some bc =>
    if !bc.TrackMergeMessage then .ok []
    else
      match ctx.Repository.commitHistory 50 with
      | .error e => .error ("failed to get commit history: " ++ e)
      | .ok commits =>
        .ok (commits.filterMap fun commit =>
          match mergeMatch commit.Message.toList with
          | none => none
          | some branchName =>
            match findVersion branchName with
            | none => none
            | some (ma, mi, pa, pre) =>
              some ⟨⟨ma, mi, pa, pre, ""⟩,
                "Merge message '" ++ commit.Message ++ "'",
                !(match bc.PreventIncrement with
                  | some pic => pic.OfMergedBranch
                  | none => false),
                commit.SHA⟩)

/-- `VersionInBranchNameStrategy.GetBaseVersions`. -/
def versionInBranchNameGetBaseVersions (ctx : VersionContext) :
    Except String (List BaseVersion) :=
  match findVersion ctx.CurrentBranch.toList with
  | none => .ok []
  | some (ma, mi, pa, pre) =>
    .ok [⟨⟨ma, mi, pa, pre, ""⟩,
      "Version in branch name '" ++ ctx.CurrentBranch ++ "'",
      false, ctx.CurrentCommit⟩]

/-- `TrackReleaseBranchesStrategy.GetBaseVersions`.  The inner
`VersionInBranchName` invocation never fails, so only the empty-result
check remains of its error handling; a branch whose merge-base query
fails is skipped. -/
def trackReleaseBranchesGetBaseVersions (ctx : VersionContext) :
    Except String (List BaseVersion) :=
  match ctx.BranchConfig with
  | none => .ok []
  | some bc =>
    if !bc.TracksReleaseBranches then .ok []
    else
      match ctx.Repository.branches with
      | .error e => .error ("failed to get branches: " ++ e)
      | .ok branches =>
        .ok (branches.filterMap fun branch =>
          if !(strStartsWith branch "release/" || strStartsWith branch "release-" ||
              strStartsWith branch "releases/" || strStartsWith branch "releases-") then
            none
          else
            match findVersion branch.toList with
            | none => none
            | some (ma, mi, pa, pre) =>
              match ctx.Repository.mergeBase branch ctx.CurrentBranch with
              | .error _ => none
              | .ok mb =>
                some ⟨⟨ma, mi, pa, pre, ""⟩, "Release branch '" ++ branch ++ "'",
                  true, mb⟩)

/-- `MainlineStrategy.GetBaseVersions`.  `GetLatestTag` cannot fail (it
swallows its error and yields `""`), so the Go no-tags error branch is
unreachable; an empty or unparsable latest tag yields the 0.0.0
candidate. -/
def mainlineGetBaseVersions (ctx : VersionContext) :
    Except String (List BaseVersion) :=
  match ctx.BranchConfig with
  | none => .ok []
  | some bc =>
    if !bc.IsMainBranch then .ok []
    else
      match Semver.Parse ctx.Repository.latestTag with
      | none => .ok [⟨⟨0, 0, 0, "", ""⟩, "Mainline strategy (invalid tag)", true, ""⟩]
      | some v =>
        let tagSHA :=
          match ctx.Repository.commitSHAForTag ctx.Repository.latestTag with
          | .error _ => ""
          | .ok s => s
        .ok [⟨v, "Mainline strategy from tag '" ++ ctx.Repository.latestTag ++ "'",
          true, tagSHA⟩]

/-- `VersionStrategy.GetName` of the strategy registered for a mask
value. -/
def strategyName (s : Nat) : String :=
  if s = Fallback then "Fallback"
  else if s = ConfiguredNextVersion then "ConfiguredNextVersion"
  else if s = TaggedCommit then "TaggedCommit"
  else if s = MergeMessage then "MergeMessage"
  else if s = VersionInBranchName then "VersionInBranchName"
  else if s = TrackReleaseBranches then "TrackReleaseBranches"
  else if s = Mainline then "Mainline"
  else ""

/-- The strategy map built by `NewStrategyManager`. -/
def strategyFor (s : Nat) :
    Option (VersionContext → Except String (List BaseVersion)) :=
  if s = Fallback then some fallbackGetBaseVersions
  else if s = ConfiguredNextVersion then some configuredNextVersionGetBaseVersions
  else if s = TaggedCommit then some taggedCommitGetBaseVersions
  else if s = MergeMessage then some mergeMessageGetBaseVersions
  else if s = VersionInBranchName then some versionInBranchNameGetBaseVersions
  else if s = TrackReleaseBranches then some trackReleaseBranchesGetBaseVersions
  else if s = Mainline then some mainlineGetBaseVersions
  else none

/-- The fixed priority order of `StrategyManager.GetBaseVersions`. -/
def strategyOrder : List Nat :=
  [ConfiguredNextVersion, VersionInBranchName, TaggedCommit,
    TrackReleaseBranches, MergeMessage, Mainline, Fallback]

/-- The strategy loop of `StrategyManager.GetBaseVersions`: skip
disabled strategies, abort on the first failure (wrapping the error with
the strategy name), concatenate candidate lists in order. -/
def runStrategies : List Nat → VersionContext → Except String (List BaseVersion)
  | [], _ => .ok []
  | s :: rest, ctx =>
    if ctx.Strategies &&& s ≠ 0 then
      match strategyFor s with
      | none => runStrategies rest ctx
      | some f =>
        match f ctx with
        | .error e => .error ("strategy " ++ strategyName s ++ " failed: " ++ e)
        | .ok vs =>
          match runStrategies rest ctx with
          | .error e => .error e
          | .ok rest' => .ok (vs ++ rest')
    else runStrategies rest ctx

/-- `StrategyManager.GetBaseVersions`: run the ordered strategies, then
fall back to the `Fallback` strategy if the pool is empty. -/
def smGetBaseVersions (ctx : VersionContext) : Except String (List BaseVersion) :=
  match runStrategies strategyOrder ctx with
  | .error e => .error e
  | .ok all =>
    if all.isEmpty then
      match fallbackGetBaseVersions ctx with
      | .error e => .error ("fallback strategy failed: " ++ e)
      | .ok vs => .ok (all ++ vs)
    else .ok all

/-- `StrategyManager.FindBestBaseVersion`. -/
def FindBestBaseVersion (baseVersions : List BaseVersion) : Option BaseVersion :=
  match baseVersions with
  | [] => none
  | b :: rest =>
    some (rest.foldl (fun best bv =>
      if bv.SemanticVersion.Compare best.SemanticVersion > 0 then bv
      else if bv.SemanticVersion.Compare best.SemanticVersion = 0 ∧
          best.SemanticVersion.PreRelease ≠ "" ∧
          bv.SemanticVersion.PreRelease = "" then bv
      else best) b)

/-- The base-version selection loop inside `CalculateVersion` (lines
98–104 of `calculator.go`): running strict-greater maximum. -/
def selectHighest (baseVersions : List BaseVersion) : Option BaseVersion :=
  baseVersions.foldl (fun acc bv =>
    match acc with
    | none => some bv
    | some best =>
      if bv.SemanticVersion.GreaterThan best.SemanticVersion then some bv
      else some best) none

/-- `Calculator.extractFeatureName`. -/
def extractFeatureName (branch : String) : String :=
  let parts := splitOnChar '/' branch.toList
  if parts.length > 1 then Semver.SanitizeBranchName (parts.getLastD []).asString
  else Semver.SanitizeBranchName branch

/-- `Calculator.extractReleaseName`: the sanitized text after the last
`-` of the trailing `/`-segment, or `""` when the branch has no `/`, the
segment has no `-`, or the `-` is its last character.  (The reversed
`takeWhile` computes the slice `versionPart[dashIndex+1:]` after
`strings.LastIndex(versionPart, "-")`.) -/
def extractReleaseName (branch : String) : String :=
  let parts := splitOnChar '/' branch.toList
  if parts.length > 1 then
    let versionPart := parts.getLastD []
    if versionPart.contains '-' then
      let suffix := (versionPart.reverse.takeWhile fun c => decide (c ≠ '-')).reverse
      if suffix = [] then "" else Semver.SanitizeBranchName suffix.asString
    else ""
  else ""

/-- The trailing `/`-delimited path segment of a branch name (the
spec's wording for the part of the branch name the release tag is
extracted from). -/
def lastSegment (branch : String) : List Char :=
  (splitOnChar '/' branch.toList).getLastD []

/-- The text after the last `-` of a segment, when a `-` exists and is
not the last character (the spec's wording of the release-tag
extraction; compare `extractReleaseName`, which additionally sanitizes
the text). -/
def afterLastDash (seg : List Char) : Option (List Char) :=
  if seg.contains '-' then
    if (seg.reverse.takeWhile fun c => decide (c ≠ '-')).reverse = [] then none
    else some (seg.reverse.takeWhile fun c => decide (c ≠ '-')).reverse
  else none

/-- `Calculator.applyBranchSpecificVersioning` (value-passing form of
the Go in-place mutation). -/
def applyBranchSpecificVersioning (version : Semver.Version)
    (branch branchType : String) (commitCount : Nat) (sha : String) :
    Semver.Version :=
  let build := natReprS commitCount ++ "+" ++ sha
  if branchType = Main then { version with Build := build }
  else if branchType = Develop then
    { version with
      Build := build
      PreRelease :=
        if commitCount > 0 then "alpha." ++ natReprS commitCount
        else version.PreRelease }
  else if branchType = Feature then
    { version with
      Build := build
      PreRelease :=
        if commitCount > 0 then
          extractFeatureName branch ++ "." ++ natReprS commitCount
        else version.PreRelease }
  else if branchType = Release then
    { version with
      Build := build
      PreRelease :=
        if commitCount > 0 then
          (let releaseName := extractReleaseName branch
           if releaseName ≠ "" then releaseName ++ "." ++ natReprS commitCount
           else "beta." ++ natReprS commitCount)
        else version.PreRelease }
  else if branchType = Hotfix then
    { version with
      Build := build
      PreRelease :=
        if commitCount > 0 then "hotfix." ++ natReprS commitCount
        else version.PreRelease }
  else
    { version with
      Build := build
      PreRelease :=
        if commitCount > 0 then
          Semver.SanitizeBranchName branch ++ "." ++ natReprS commitCount
        else version.PreRelease }

/-- `version.Calculator` (the strategy manager holds no state beyond the
same repository and configuration). -/
structure Calculator where
  repo : Git.Repository
  config : Config.Config

/-- The strategy mask assembled by `CalculateVersion`:
`ConfiguredNextVersion` only when a next version was supplied, plus the
defaults `TaggedCommit | MergeMessage | Fallback`. -/
def calcStrategiesMask (nextVersion : String) : Nat :=
  (if nextVersion ≠ "" then ConfiguredNextVersion else 0) |||
    (TaggedCommit ||| (MergeMessage ||| Fallback))

/-- The `VersionContext` constructed by `CalculateVersion` (`branch` is
already resolved against `GetCurrentBranch` by the caller). -/
def calcContext (c : Calculator) (branch nextVersion : String) : VersionContext :=
  { Repository := c.repo
    Config := c.config
    CurrentBranch := branch
    CurrentCommit := c.repo.sha
    BranchConfig := some (Config.GetBranchConfiguration c.config branch)
    Strategies := calcStrategiesMask nextVersion
    NextVersion := nextVersion }

/-- The inline fallback candidate of `CalculateVersion` (used when the
pool yields no selection; unreachable in practice because the manager
itself falls back). -/
def inlineFallbackBase : BaseVersion :=
  ⟨⟨0, 0, 0, "", ""⟩, "fallback", true, "fallback"⟩

/-- `Calculator.CalculateVersion` (the strategy-based version):
classify, run strategies, select the highest base, apply the forced or
configured increment, then synthesize pre-release/build.
`GetCurrentBranch`, `GetSHA`, `GetCommitCountSinceTag` and `GetShortSHA`
swallow their errors (see `Git.Repository`), so the only failure path is
the strategy run. -/
def CalculateVersion (c : Calculator) (branch workflow forceIncrement nextVersion : String) :
    Except String Semver.Version :=
  let branch := if branch = "" then c.repo.currentBranch else branch
  let branchConfig := Config.GetBranchConfiguration c.config branch
  let ctx := calcContext c branch nextVersion
  match smGetBaseVersions ctx with
  | .error e => .error ("failed to get base versions: " ++ e)
  | .ok baseVersions =>
    let baseVersion := (selectHighest baseVersions).getD inlineFallbackBase
    let version := baseVersion.SemanticVersion.Copy
    let version :=
      if forceIncrement ≠ "" then
        if forceIncrement = "major" then version.IncrementMajor
        else if forceIncrement = "minor" then version.IncrementMinor
        else if forceIncrement = "patch" then version.IncrementPatch
        else version
      else if (match branchConfig.PreventIncrement with
               | none => true
               | some pic => !pic.OfMergedBranch && !pic.WhenCurrentCommitTagged) then
        if branchConfig.Increment = "Major" then version.IncrementMajor
        else if branchConfig.Increment = "Minor" then version.IncrementMinor
        else if branchConfig.Increment = "Patch" || branchConfig.Increment = "" then
          version.IncrementPatch
        else version
      else version
    let branchType := getBranchType branch workflow
    let commitCount := c.repo.commitCountSinceTag ""
    let sha := c.repo.shortSHA
    .ok (applyBranchSpecificVersioning version branch branchType commitCount sha)

end Calc

/-! ## Concrete fixtures for counterexamples and witnesses -/

/-- A repository whose only reachable tag is `v5.0.0` (resolving to
commit `sha5`), with no commits since the anchor and short SHA `abc`. -/
def repoTag5 : Git.Repository :=
  { currentBranch := "main"
    sha := "deadbeef"
    shortSHA := "abc"
    latestTag := ""
    tagsOnCurrentBranch := ["v5.0.0"]
    commitSHAForTag := fun t => if t = "v5.0.0" then .ok "sha5" else .error "no such tag"
    branches := .ok []
    mergeBase := fun _ _ => .error "no merge base"
    commitHistory := fun _ => .ok []
    commitCountSinceTag := fun _ => 0
    commitsSinceTag := fun _ => [] }

/-- A repository whose commit-history query fails. -/
def repoHistFail : Git.Repository :=
  { repoTag5 with
    tagsOnCurrentBranch := []
    commitHistory := fun _ => .error "boom" }

/-- A repository with one parsable and one unparsable tag. -/
def repoMixedTags : Git.Repository :=
  { repoTag5 with
    tagsOnCurrentBranch := ["v1.2.3", "junk"]
    commitSHAForTag := fun _ => .ok "sha1" }

/-- A configuration with no declared next version and no branch
policies. -/
def cfgEmpty : Config.Config :=
  { NextVersion := ""
    Mode := ""
    Increment := ""
    TagPrefix := ""
    Strategies := []
    Branches := [] }

/-- A configuration whose `main` policy tracks merge messages. -/
def cfgTrackMM : Config.Config :=
  { cfgEmpty with
    Branches := [("main", { Config.defaultBranchConfiguration with TrackMergeMessage := true })] }

/-- A context pointing at `repoMixedTags` with no strategies enabled
(only used to exercise a single strategy directly). -/
def ctxMixed : Calc.VersionContext :=
  { Repository := repoMixedTags
    Config := cfgEmpty
    CurrentBranch := "main"
    CurrentCommit := "c"
    BranchConfig := none
    Strategies := 0
    NextVersion := "" }

/-- The candidate produced by the explicit override `2.0.0`. -/
def bvOverride : Calc.BaseVersion :=
  ⟨⟨2, 0, 0, "", ""⟩, "Configured next version: 2.0.0", false, ""⟩

/-- The candidate produced by the tag `v5.0.0`. -/
def bvTag5 : Calc.BaseVersion :=
  ⟨⟨5, 0, 0, "", ""⟩, "Tag 'v5.0.0'", true, "sha5"⟩

/-- The fallback candidate. -/
def bvZero : Calc.BaseVersion :=
  ⟨⟨0, 0, 0, "", ""⟩, "Fallback strategy", true, ""⟩

/-! ## Proofs -/

theorem char_toNat_inj {a b : Char} (h : a.toNat = b.toNat) : a = b := by
  rw [← Char.ofNat_toNat a, ← Char.ofNat_toNat b, h]

theorem charsLt_asymm : ∀ {x y : List Char},
    charsLt x y = true → charsLt y x = true → False
  | [], [], h, _ => by simp [charsLt] at h
  | [], _ :: _, _, h2 => by simp [charsLt] at h2
  | _ :: _, [], h, _ => by simp [charsLt] at h
  | a :: x, b :: y, h1, h2 => by
    unfold charsLt at h1 h2
    split_ifs at h1 h2 <;> first
      | omega
      | exact charsLt_asymm h1 h2

theorem charsLt_trans : ∀ {x y z : List Char},
    charsLt x y = true → charsLt y z = true → charsLt x z = true
  | [], _, _ :: _, _, _ => by simp [charsLt]
  | [], _ :: _, [], _, h2 => by simp [charsLt] at h2
  | [], [], [], h1, _ => by simp [charsLt] at h1
  | _ :: _, [], _, h1, _ => by simp [charsLt] at h1
  | _ :: _, _ :: _, [], _, h2 => by simp [charsLt] at h2
  | a :: x, b :: y, c :: z, h1, h2 => by
    unfold charsLt at h1 h2 ⊢
    split_ifs at h1 h2 ⊢ <;> first
      | rfl
      | omega
      | exact charsLt_trans h1 h2

theorem charsLt_connex : ∀ {x y : List Char},
    charsLt x y = false → charsLt y x = false → x = y
  | [], [], _, _ => rfl
  | [], _ :: _, h1, _ => by simp [charsLt] at h1
  | _ :: _, [], _, h2 => by simp [charsLt] at h2
  | a :: x, b :: y, h1, h2 => by
    unfold charsLt at h1 h2
    split_ifs at h1 h2 with hab hba
    have hcc : a = b := char_toNat_inj (by omega)
    have hxy : x = y := charsLt_connex h1 h2
    rw [hcc, hxy]

/-- Go `strings.Split` on a single-character separator: splits at every
occurrence, keeping empty fields. -/
theorem digitChar_isDigit {n : Nat} (h : n < 10) : (Nat.digitChar n).isDigit = true := by
  interval_cases n <;> decide

theorem digitChar_toNat {n : Nat} (h : n < 10) : (Nat.digitChar n).toNat = 48 + n := by
  interval_cases n <;> decide

theorem digitsAux_ne_nil {fuel n : Nat} (h : n < fuel) : digitsAux fuel n ≠ [] := by
  match fuel with
  | f + 1 =>
    unfold digitsAux
    split
    · simp
    · simp

theorem digitsAux_all_digits {fuel n : Nat} (h : n < fuel) :
    ∀ c ∈ digitsAux fuel n, c.isDigit = true := by
  induction fuel generalizing n with
  | zero => omega
  | succ f ih =>
    unfold digitsAux
    split
    · next h10 =>
      intro c hc
      simp only [List.mem_singleton] at hc
      subst hc
      exact digitChar_isDigit h10
    · next h10 =>
      intro c hc
      have hdiv : n / 10 < f := by omega
      rcases List.mem_append.mp hc with h1 | h1
      · exact ih hdiv c h1
      · simp only [List.mem_singleton] at h1
        subst h1
        exact digitChar_isDigit (Nat.mod_lt _ (by omega))

theorem foldl_digitsAux {fuel n : Nat} (h : n < fuel) (a : Nat) :
    (digitsAux fuel n).foldl (fun a c => 10 * a + (c.toNat - 48)) a =
      a * 10 ^ (digitsAux fuel n).length + n := by
  induction fuel generalizing n a with
  | zero => omega
  | succ f ih =>
    unfold digitsAux
    split
    · next h10 =>
      simp [List.foldl, digitChar_toNat h10]
      ring
    · next h10 =>
      have hdiv : n / 10 < f := by omega
      rw [List.foldl_append, ih hdiv a]
      simp [List.foldl, digitChar_toNat (Nat.mod_lt n (by omega))]
      have : 10 * (a * 10 ^ (digitsAux f (n / 10)).length + n / 10) + n % 10 =
          a * (10 ^ (digitsAux f (n / 10)).length * 10) + (10 * (n / 10) + n % 10) := by ring
      rw [this, Nat.div_add_mod]
      ring_nf

theorem digitsToNat_natRepr (n : Nat) : digitsToNat (natRepr n) = n := by
  have := foldl_digitsAux (Nat.lt_succ_self n) 0
  simpa [digitsToNat, natRepr] using this

theorem natRepr_ne_nil (n : Nat) : natRepr n ≠ [] :=
  digitsAux_ne_nil (Nat.lt_succ_self n)

theorem natRepr_all_digits (n : Nat) : ∀ c ∈ natRepr n, c.isDigit = true :=
  digitsAux_all_digits (Nat.lt_succ_self n)

theorem takeWhile_append_of_all {p : Char → Bool} {xs : List Char} (ys : List Char)
    (h : ∀ c ∈ xs, p c = true) :
    (xs ++ ys).takeWhile p = xs ++ ys.takeWhile p := by
  induction xs with
  | nil => simp
  | cons x xs ih =>
    have hx : p x = true := h x (List.mem_cons_self x xs)
    simp [List.takeWhile, hx, ih fun c hc => h c (List.mem_cons_of_mem x hc)]

theorem dropWhile_append_of_all {p : Char → Bool} {xs : List Char} (ys : List Char)
    (h : ∀ c ∈ xs, p c = true) :
    (xs ++ ys).dropWhile p = ys.dropWhile p := by
  induction xs with
  | nil => simp
  | cons x xs ih =>
    have hx : p x = true := h x (List.mem_cons_self x xs)
    simp [List.dropWhile, hx, ih fun c hc => h c (List.mem_cons_of_mem x hc)]

theorem takeWhile_cons_of_neg {p : Char → Bool} {c : Char} (cs : List Char)
    (h : p c = false) : (c :: cs).takeWhile p = [] := by
  simp [List.takeWhile, h]

theorem dropWhile_cons_of_neg {p : Char → Bool} {c : Char} (cs : List Char)
    (h : p c = false) : (c :: cs).dropWhile p = c :: cs := by
  simp [List.dropWhile, h]

/-! ### Semantic-version proofs -/

namespace Semver

example : Parse "v1.2.3-alpha.1+build.5" =
    some ⟨1, 2, 3, "alpha.1", "build.5"⟩ := by decide
example : Parse "1.2" = none := by decide
example : Parse "10.0.2" = some ⟨10, 0, 2, "", ""⟩ := by decide
example : Version.toStr ⟨1, 2, 3, "alpha", "b1"⟩ = "1.2.3-alpha+b1" := by decide
example : SanitizeBranchName "user@auth#test" = "user-auth-test" := by decide

/-! ### Order theory of `Version.Compare` -/

theorem strLt_asymm {x y : String} (h1 : strLt x y = true) (h2 : strLt y x = true) :
    False :=
  charsLt_asymm h1 h2

theorem strLt_trans {x y z : String} (h1 : strLt x y = true) (h2 : strLt y z = true) :
    strLt x z = true :=
  charsLt_trans h1 h2

theorem strLt_connex {x y : String} (h1 : strLt x y = false) (h2 : strLt y x = false) :
    x = y := by
  have := charsLt_connex h1 h2
  exact String.toList_inj.mp this

theorem preLt_asymm {x y : String} (h1 : PreLt x y) (h2 : PreLt y x) : False := by
  rcases h1 with ⟨hx, hy⟩ | ⟨hx, hy, hlt⟩ <;>
    rcases h2 with ⟨hx2, hy2⟩ | ⟨hx2, hy2, hlt2⟩ <;>
      first
        | exact hx2 hy
        | exact hx hy2
        | exact strLt_asymm hlt hlt2

theorem preLt_trans {x y z : String} (h1 : PreLt x y) (h2 : PreLt y z) : PreLt x z := by
  rcases h1 with ⟨hx, hy⟩ | ⟨hx, hy, hlt⟩ <;>
    rcases h2 with ⟨hx2, hy2⟩ | ⟨hx2, hy2, hlt2⟩
  · exact absurd hy hx2
  · exact absurd hy hx2
  · exact Or.inl ⟨hx, hy2⟩
  · exact Or.inr ⟨hx, hy2, strLt_trans hlt hlt2⟩

theorem preLt_connex {x y : String} (h1 : ¬ PreLt x y) (h2 : ¬ PreLt y x) : x = y := by
  by_cases hx : x = ""
  · by_cases hy : y = ""
    · rw [hx, hy]
    · exact absurd (Or.inl ⟨hy, hx⟩) h2
  · by_cases hy : y = ""
    · exact absurd (Or.inl ⟨hx, hy⟩) h1
    · by_cases hl : strLt x y = true
      · exact absurd (Or.inr ⟨hx, hy, hl⟩) h1
      · by_cases hl2 : strLt y x = true
        · exact absurd (Or.inr ⟨hy, hx, hl2⟩) h2
        · exact strLt_connex (Bool.not_eq_true _ ▸ hl)
            (Bool.not_eq_true _ ▸ hl2)

theorem vlt_asymm {a b : Version} (h1 : VLt a b) (h2 : VLt b a) : False := by
  rcases h1 with h1 | ⟨e1, h1 | ⟨e1b, h1 | ⟨e1c, h1⟩⟩⟩ <;>
    rcases h2 with h2 | ⟨e2, h2 | ⟨e2b, h2 | ⟨e2c, h2⟩⟩⟩ <;>
      first
        | omega
        | exact preLt_asymm h1 h2

theorem vlt_irrefl {a : Version} (h : VLt a a) : False :=
  vlt_asymm h h

theorem vlt_trans {a b c : Version} (h1 : VLt a b) (h2 : VLt b c) : VLt a c := by
  rcases h1 with h1 | ⟨e1, h1⟩ <;> rcases h2 with h2 | ⟨e2, h2⟩
  · left; omega
  · left; omega
  · left; omega
  · right
    refine ⟨by omega, ?_⟩
    rcases h1 with h1 | ⟨f1, h1⟩ <;> rcases h2 with h2 | ⟨f2, h2⟩
    · left; omega
    · left; omega
    · left; omega
    · right
      refine ⟨by omega, ?_⟩
      rcases h1 with h1 | ⟨g1, h1⟩ <;> rcases h2 with h2 | ⟨g2, h2⟩
      · left; omega
      · left; omega
      · left; omega
      · right
        exact ⟨by omega, preLt_trans h1 h2⟩

/-- Trichotomy specification of `Version.Compare`: it returns `-1`, `0`
or `1` exactly according to the `VLt`/`VEq` order. -/
theorem compare_spec (a b : Version) :
    (a.Compare b = -1 ∧ VLt a b) ∨ (a.Compare b = 0 ∧ VEq a b) ∨
      (a.Compare b = 1 ∧ VLt b a) := by
  unfold Version.Compare
  split_ifs with h1 h2 h3 h4 h5 h6 h7 h8 h9 h10
  · exact Or.inl ⟨rfl, Or.inl h1⟩
  · exact Or.inr (Or.inr ⟨rfl, Or.inl h2⟩)
  · exact Or.inl ⟨rfl, Or.inr ⟨by omega, Or.inl h3⟩⟩
  · exact Or.inr (Or.inr ⟨rfl, Or.inr ⟨by omega, Or.inl h4⟩⟩)
  · exact Or.inl ⟨rfl, Or.inr ⟨by omega, Or.inr ⟨by omega, Or.inl h5⟩⟩⟩
  · exact Or.inr (Or.inr ⟨rfl, Or.inr ⟨by omega, Or.inr ⟨by omega, Or.inl h6⟩⟩⟩)
  · exact Or.inr (Or.inr ⟨rfl, Or.inr ⟨by omega, Or.inr ⟨by omega,
      Or.inr ⟨by omega, Or.inl ⟨h7.2, h7.1⟩⟩⟩⟩⟩)
  · exact Or.inl ⟨rfl, Or.inr ⟨by omega, Or.inr ⟨by omega,
      Or.inr ⟨by omega, Or.inl h8⟩⟩⟩⟩
  · exact Or.inr (Or.inl ⟨rfl, by omega, by omega, by omega, h9⟩)
  · have hna : a.PreRelease ≠ "" := by
      intro ha
      by_cases hb : b.PreRelease = ""
      · exact h9 (ha.trans hb.symm)
      · exact h7 ⟨ha, hb⟩
    have hnb : b.PreRelease ≠ "" := fun hb => h8 ⟨hna, hb⟩
    refine Or.inl ⟨rfl, ?_⟩
    refine Or.inr ⟨by omega, ?_⟩
    refine Or.inr ⟨by omega, ?_⟩
    refine Or.inr ⟨by omega, ?_⟩
    exact Or.inr ⟨hna, hnb, h10⟩
  · have hna : a.PreRelease ≠ "" := by
      intro ha
      by_cases hb : b.PreRelease = ""
      · exact h9 (ha.trans hb.symm)
      · exact h7 ⟨ha, hb⟩
    have hnb : b.PreRelease ≠ "" := fun hb => h8 ⟨hna, hb⟩
    have hba : strLt b.PreRelease a.PreRelease = true := by
      by_contra hc
      exact h9 (strLt_connex (Bool.not_eq_true _ ▸ h10) (Bool.not_eq_true _ ▸ hc))
    refine Or.inr (Or.inr ⟨rfl, ?_⟩)
    refine Or.inr ⟨by omega, ?_⟩
    refine Or.inr ⟨by omega, ?_⟩
    refine Or.inr ⟨by omega, ?_⟩
    exact Or.inr ⟨hnb, hna, hba⟩

theorem veq_of_vnlt {a b : Version} (h1 : ¬ VLt a b) (h2 : ¬ VLt b a) : VEq a b := by
  rcases compare_spec a b with ⟨_, h⟩ | ⟨_, h⟩ | ⟨_, h⟩
  · exact absurd h h1
  · exact h
  · exact absurd h h2

theorem not_vlt_of_veq {a b : Version} (he : VEq a b) : ¬ VLt a b := by
  intro hl
  rcases he with ⟨e1, e2, e3, e4⟩
  rcases hl with h | ⟨_, h | ⟨_, h | ⟨_, h⟩⟩⟩
  · omega
  · omega
  · omega
  · rw [e4] at h
    exact preLt_asymm h h

theorem veq_symm {a b : Version} (he : VEq a b) : VEq b a :=
  ⟨he.1.symm, he.2.1.symm, he.2.2.1.symm, he.2.2.2.symm⟩

theorem compare_eq_neg_one_of_vlt {a b : Version} (h : VLt a b) : a.Compare b = -1 := by
  rcases compare_spec a b with ⟨hc, _⟩ | ⟨hc, he⟩ | ⟨hc, hl⟩
  · exact hc
  · exact absurd h (not_vlt_of_veq he)
  · exact (vlt_asymm h hl).elim

theorem compare_eq_zero_of_veq {a b : Version} (h : VEq a b) : a.Compare b = 0 := by
  rcases compare_spec a b with ⟨hc, hl⟩ | ⟨hc, _⟩ | ⟨hc, hl⟩
  · exact absurd hl (not_vlt_of_veq h)
  · exact hc
  · exact absurd hl (not_vlt_of_veq (veq_symm h))

theorem compare_eq_one_of_vlt {a b : Version} (h : VLt b a) : a.Compare b = 1 := by
  rcases compare_spec a b with ⟨_, hl⟩ | ⟨_, he⟩ | ⟨hc, _⟩
  · exact (vlt_asymm h hl).elim
  · exact absurd h (not_vlt_of_veq (veq_symm he))
  · exact hc

theorem veq_trans {a b c : Version} (h1 : VEq a b) (h2 : VEq b c) : VEq a c :=
  ⟨h1.1.trans h2.1, h1.2.1.trans h2.2.1, h1.2.2.1.trans h2.2.2.1,
    h1.2.2.2.trans h2.2.2.2⟩

theorem vlt_of_vlt_veq {a b c : Version} (h1 : VLt a b) (h2 : VEq b c) : VLt a c := by
  rcases h2 with ⟨e1, e2, e3, e4⟩
  rcases h1 with h | ⟨e, h | ⟨eb, h | ⟨ec, h⟩⟩⟩
  · exact Or.inl (by omega)
  · exact Or.inr ⟨by omega, Or.inl (by omega)⟩
  · exact Or.inr ⟨by omega, Or.inr ⟨by omega, Or.inl (by omega)⟩⟩
  · exact Or.inr ⟨by omega, Or.inr ⟨by omega, Or.inr ⟨by omega, e4 ▸ h⟩⟩⟩

theorem vlt_of_veq_vlt {a b c : Version} (h1 : VEq a b) (h2 : VLt b c) : VLt a c := by
  rcases h1 with ⟨e1, e2, e3, e4⟩
  rcases h2 with h | ⟨e, h | ⟨eb, h | ⟨ec, h⟩⟩⟩
  · exact Or.inl (by omega)
  · exact Or.inr ⟨by omega, Or.inl (by omega)⟩
  · exact Or.inr ⟨by omega, Or.inr ⟨by omega, Or.inl (by omega)⟩⟩
  · exact Or.inr ⟨by omega, Or.inr ⟨by omega, Or.inr ⟨by omega, e4 ▸ h⟩⟩⟩

/-- `Compare` only returns values in `{-1, 0, 1}`. -/
theorem compare_values (a b : Version) :
    a.Compare b = -1 ∨ a.Compare b = 0 ∨ a.Compare b = 1 := by
  rcases compare_spec a b with ⟨h, _⟩ | ⟨h, _⟩ | ⟨h, _⟩
  · exact Or.inl h
  · exact Or.inr (Or.inl h)
  · exact Or.inr (Or.inr h)

/-- Nonpositive `Compare` characterised by the order. -/
theorem compare_nonpos_iff {a b : Version} :
    a.Compare b ≤ 0 ↔ VLt a b ∨ VEq a b := by
  constructor
  · intro h
    rcases compare_spec a b with ⟨_, hl⟩ | ⟨_, he⟩ | ⟨hc, _⟩
    · exact Or.inl hl
    · exact Or.inr he
    · omega
  · intro h
    rcases h with h | h
    · rw [compare_eq_neg_one_of_vlt h]
      omega
    · rw [compare_eq_zero_of_veq h]

theorem compare_le_trans {a b c : Version}
    (h1 : a.Compare b ≤ 0) (h2 : b.Compare c ≤ 0) : a.Compare c ≤ 0 := by
  rw [compare_nonpos_iff] at h1 h2 ⊢
  rcases h1 with h1 | h1 <;> rcases h2 with h2 | h2
  · exact Or.inl (vlt_trans h1 h2)
  · exact Or.inl (vlt_of_vlt_veq h1 h2)
  · exact Or.inl (vlt_of_veq_vlt h1 h2)
  · exact Or.inr (veq_trans h1 h2)

theorem veq_refl (a : Version) : VEq a a := ⟨rfl, rfl, rfl, rfl⟩

theorem compare_self (a : Version) : a.Compare a = 0 :=
  compare_eq_zero_of_veq (veq_refl a)

/-! ### Parse / render round trip -/

theorem stripLeadV_of_digit {c : Char} (t : List Char) (hc : c.isDigit = true) :
    stripLeadV (c :: t) = c :: t := by
  have hv : c ≠ 'v' := by
    intro h
    rw [h] at hc
    simp at hc
  simp [stripLeadV, hv]

theorem takeWhile_natRepr_append (n : Nat) (rest : List Char)
    (hrest : rest.takeWhile Char.isDigit = []) :
    (natRepr n ++ rest).takeWhile Char.isDigit = natRepr n := by
  rw [takeWhile_append_of_all rest (natRepr_all_digits n), hrest, List.append_nil]

theorem dropWhile_natRepr_append (n : Nat) (rest : List Char)
    (hrest : rest.dropWhile Char.isDigit = rest) :
    (natRepr n ++ rest).dropWhile Char.isDigit = rest := by
  rw [dropWhile_append_of_all rest (natRepr_all_digits n), hrest]

theorem stripLeadV_natRepr_append (n : Nat) (rest : List Char) :
    stripLeadV (natRepr n ++ rest) = natRepr n ++ rest := by
  cases hM : natRepr n with
  | nil => exact absurd hM (natRepr_ne_nil n)
  | cons d ds =>
    have hd : d.isDigit = true := by
      apply natRepr_all_digits n
      rw [hM]
      exact List.mem_cons_self _ _
    rw [List.cons_append]
    exact stripLeadV_of_digit _ hd

theorem takeWhile_all {p : Char → Bool} {xs : List Char}
    (h : ∀ c ∈ xs, p c = true) : xs.takeWhile p = xs := by
  induction xs with
  | nil => rfl
  | cons x xs ih =>
    have hx : p x = true := h x (List.mem_cons_self x xs)
    simp [List.takeWhile, hx, ih fun c hc => h c (List.mem_cons_of_mem x hc)]

theorem dropWhile_all {p : Char → Bool} {xs : List Char}
    (h : ∀ c ∈ xs, p c = true) : xs.dropWhile p = [] := by
  induction xs with
  | nil => rfl
  | cons x xs ih =>
    have hx : p x = true := h x (List.mem_cons_self x xs)
    simp [List.dropWhile, hx, ih fun c hc => h c (List.mem_cons_of_mem x hc)]

theorem parseNumDot_natRepr (n : Nat) (rest : List Char) :
    parseNumDot (natRepr n ++ '.' :: rest) = some (n, rest) := by
  unfold parseNumDot
  rw [takeWhile_natRepr_append n _ (takeWhile_cons_of_neg _ (by decide)),
    dropWhile_natRepr_append n _ (dropWhile_cons_of_neg _ (by decide))]
  rw [if_neg (natRepr_ne_nil n), digitsToNat_natRepr]
  rfl

theorem parseNumEnd_natRepr (n : Nat) (rest : List Char)
    (htake : rest.takeWhile Char.isDigit = [])
    (hdrop : rest.dropWhile Char.isDigit = rest) :
    parseNumEnd (natRepr n ++ rest) = some (n, rest) := by
  unfold parseNumEnd
  rw [takeWhile_natRepr_append n _ htake, dropWhile_natRepr_append n _ hdrop]
  rw [if_neg (natRepr_ne_nil n), digitsToNat_natRepr]

theorem toList_ne_nil {s : String} (h : s ≠ "") : s.toList ≠ [] := by
  intro hl
  exact h (String.toList_inj.mp (by rw [hl, String.toList_empty]))

theorem parseTailGroups_render (pre bd : String)
    (hpre : ∀ c ∈ pre.toList, isPreReleaseChar c = true)
    (hbuild : ∀ c ∈ bd.toList, isBuildChar c = true) :
    parseTailGroups ((if pre = "" then [] else '-' :: pre.toList)
        ++ (if bd = "" then [] else '+' :: bd.toList)) = some (pre, bd) := by
  by_cases hpe : pre = "" <;> by_cases hbe : bd = ""
  · subst hpe hbe
    rfl
  · subst hpe
    rw [if_pos rfl, if_neg hbe, List.nil_append]
    simp only [parseTailGroups, takeWhile_all hbuild, dropWhile_all hbuild,
      if_neg (toList_ne_nil hbe), String.asString_toList, ite_true]
  · subst hbe
    rw [if_neg hpe, if_pos rfl, List.append_nil]
    simp only [parseTailGroups, takeWhile_all hpre, dropWhile_all hpre,
      if_neg (toList_ne_nil hpe), String.asString_toList]
  · rw [if_neg hpe, if_neg hbe, List.cons_append]
    have h1 : (('+' :: bd.toList) : List Char).takeWhile isPreReleaseChar = [] :=
      takeWhile_cons_of_neg _ (by decide)
    have h2 : (('+' :: bd.toList) : List Char).dropWhile isPreReleaseChar =
        '+' :: bd.toList :=
      dropWhile_cons_of_neg _ (by decide)
    simp only [parseTailGroups, takeWhile_append_of_all ('+' :: bd.toList) hpre,
      dropWhile_append_of_all ('+' :: bd.toList) hpre, h1, h2, List.append_nil,
      takeWhile_all hbuild, dropWhile_all hbuild, if_neg (toList_ne_nil hpe),
      if_neg (toList_ne_nil hbe), String.asString_toList, ite_true]

/-- Round trip of the semantic-version grammar: parsing the rendering of
a version whose pre-release and build fields lie in the character sets
accepted by `semverPattern` recovers the version exactly. -/
theorem Parse_toStr (v : Version)
    (hpre : ∀ c ∈ v.PreRelease.toList, isPreReleaseChar c = true)
    (hbuild : ∀ c ∈ v.Build.toList, isBuildChar c = true) :
    Parse v.toStr = some v := by
  obtain ⟨M, m, p, pre, bd⟩ := v
  simp only at hpre hbuild
  unfold Version.toStr Parse
  rw [List.toList_asString]
  simp only
  have htail3 : ((if pre = "" then [] else '-' :: pre.toList)
      ++ (if bd = "" then [] else '+' :: bd.toList)).takeWhile Char.isDigit = [] := by
    by_cases hpe : pre = "" <;> by_cases hbe : bd = "" <;>
      simp [hpe, hbe, List.takeWhile]
  have hdrop3 : ((if pre = "" then [] else '-' :: pre.toList)
      ++ (if bd = "" then [] else '+' :: bd.toList)).dropWhile Char.isDigit =
      ((if pre = "" then [] else '-' :: pre.toList)
        ++ (if bd = "" then [] else '+' :: bd.toList)) := by
    by_cases hpe : pre = "" <;> by_cases hbe : bd = "" <;>
      simp [hpe, hbe, List.dropWhile]
  simp only [parseChars, stripLeadV_natRepr_append, parseNumDot_natRepr,
    parseNumEnd_natRepr p _ htail3 hdrop3,
    parseTailGroups_render pre bd hpre hbuild]

end Semver

namespace Git

example : DetectVersionIncrementFromMessages ["fix: a", "feat!: b"] = .major := by decide
example : DetectVersionIncrementFromMessages ["feat(ui): b", "fix: a"] = .minor := by decide
example : DetectVersionIncrementFromMessages ["chore: x"] = .patch := by decide
example : DetectVersionIncrementFromMessages ["did a +SemVer: BREAKING thing"] = .major := by
  decide

end Git

/-! ### Further consequences of the `Compare` order -/

namespace Semver

theorem compare_le_of_not_gt {a b : Version} (h : ¬ a.Compare b > 0) :
    a.Compare b ≤ 0 := by
  rcases compare_values a b with h1 | h1 | h1 <;> omega

theorem compare_le_of_gt {a b : Version} (h : a.Compare b > 0) :
    b.Compare a ≤ 0 := by
  rcases compare_spec a b with ⟨hc, _⟩ | ⟨hc, _⟩ | ⟨hc, hl⟩
  · rw [hc] at h
    omega
  · rw [hc] at h
    omega
  · rw [compare_eq_neg_one_of_vlt hl]
    omega

theorem compare_le_of_eq_zero {a b : Version} (h : a.Compare b = 0) :
    b.Compare a ≤ 0 := by
  rcases compare_spec a b with ⟨hc, _⟩ | ⟨_, he⟩ | ⟨hc, _⟩
  · rw [h] at hc
    exact absurd hc (by decide)
  · rw [compare_eq_zero_of_veq (veq_symm he)]
  · rw [h] at hc
    exact absurd hc (by decide)

theorem compare_self_le (a : Version) : a.Compare a ≤ 0 := by
  rw [compare_self]

theorem greaterThan_true {a b : Version} (h : a.GreaterThan b = true) :
    a.Compare b > 0 :=
  of_decide_eq_true h

theorem greaterThan_false {a b : Version} (h : a.GreaterThan b = false) :
    a.Compare b ≤ 0 :=
  compare_le_of_not_gt (of_decide_eq_false h)

theorem compare_lt_of_lt_of_le {a b c : Version}
    (h1 : a.Compare b < 0) (h2 : b.Compare c ≤ 0) : a.Compare c < 0 := by
  have hab : VLt a b := by
    rcases compare_spec a b with ⟨_, hl⟩ | ⟨hc, _⟩ | ⟨hc, _⟩
    · exact hl
    · rw [hc] at h1
      omega
    · rw [hc] at h1
      omega
  have hac : VLt a c := by
    rcases compare_nonpos_iff.mp h2 with h | h
    · exact vlt_trans hab h
    · exact vlt_of_vlt_veq hab h
  rw [compare_eq_neg_one_of_vlt hac]
  omega

/-- The antisymmetry half of claim C9. -/
theorem compare_antisymm (a b : Version) : a.Compare b = -(b.Compare a) := by
  rcases compare_spec a b with ⟨h1, hx⟩ | ⟨h1, hx⟩ | ⟨h1, hx⟩ <;>
    rcases compare_spec b a with ⟨h2, hy⟩ | ⟨h2, hy⟩ | ⟨h2, hy⟩ <;>
      rw [h1, h2] <;>
        first
          | decide
          | exact (vlt_asymm hx hy).elim
          | exact absurd hy (not_vlt_of_veq hx)
          | exact absurd hy (not_vlt_of_veq (veq_symm hx))
          | exact absurd hx (not_vlt_of_veq hy)
          | exact absurd hx (not_vlt_of_veq (veq_symm hy))

end Semver

/-! ### Selection lemmas for the two base-version selectors -/

namespace Calc

theorem selectHighest_cons_cons (b c : BaseVersion) (l : List BaseVersion) :
    selectHighest (b :: c :: l) =
      selectHighest
        ((if c.SemanticVersion.GreaterThan b.SemanticVersion then c else b) :: l) := by
  simp only [selectHighest, List.foldl]
  congr 1
  by_cases hg : c.SemanticVersion.GreaterThan b.SemanticVersion = true
  · simp [hg]
  · simp [hg]

/-- `selectHighest` of a non-empty pool yields a candidate at least as
large (in `Compare`) as every pool member. -/
theorem selectHighest_sound :
    ∀ (l : List BaseVersion) (b : BaseVersion),
      ∃ r, selectHighest (b :: l) = some r ∧
        b.SemanticVersion.Compare r.SemanticVersion ≤ 0 ∧
        ∀ c ∈ l, c.SemanticVersion.Compare r.SemanticVersion ≤ 0 := by
  intro l
  induction l with
  | nil =>
    intro b
    exact ⟨b, rfl, Semver.compare_self_le _, by simp⟩
  | cons c l ih =>
    intro b
    rw [selectHighest_cons_cons]
    by_cases hg : c.SemanticVersion.GreaterThan b.SemanticVersion = true
    · rw [if_pos hg]
      obtain ⟨r, hr, hcr, hall⟩ := ih c
      have hbc : b.SemanticVersion.Compare c.SemanticVersion ≤ 0 :=
        Semver.compare_le_of_gt (Semver.greaterThan_true hg)
      refine ⟨r, hr, Semver.compare_le_trans hbc hcr, ?_⟩
      intro d hd
      rcases List.mem_cons.mp hd with h | h
      · subst h
        exact hcr
      · exact hall d h
    · rw [if_neg hg]
      obtain ⟨r, hr, hbr, hall⟩ := ih b
      have hcb : c.SemanticVersion.Compare b.SemanticVersion ≤ 0 :=
        Semver.greaterThan_false (Bool.not_eq_true _ ▸ hg)
      refine ⟨r, hr, hbr, ?_⟩
      intro d hd
      rcases List.mem_cons.mp hd with h | h
      · subst h
        exact Semver.compare_le_trans hcb hbr
      · exact hall d h

/-- `FindBestBaseVersion` of a non-empty pool yields a candidate at
least as large (in `Compare`) as every pool member. -/
theorem findBest_sound :
    ∀ (l : List BaseVersion) (b : BaseVersion),
      ∃ r, FindBestBaseVersion (b :: l) = some r ∧
        b.SemanticVersion.Compare r.SemanticVersion ≤ 0 ∧
        ∀ c ∈ l, c.SemanticVersion.Compare r.SemanticVersion ≤ 0 := by
  intro l
  induction l with
  | nil =>
    intro b
    exact ⟨b, rfl, Semver.compare_self_le _, by simp⟩
  | cons c l ih =>
    intro b
    have hstep : FindBestBaseVersion (b :: c :: l) =
        FindBestBaseVersion
          ((if c.SemanticVersion.Compare b.SemanticVersion > 0 then c
            else if c.SemanticVersion.Compare b.SemanticVersion = 0 ∧
                b.SemanticVersion.PreRelease ≠ "" ∧
                c.SemanticVersion.PreRelease = "" then c
            else b) :: l) := rfl
    rw [hstep]
    by_cases h1 : c.SemanticVersion.Compare b.SemanticVersion > 0
    · rw [if_pos h1]
      obtain ⟨r, hr, hcr, hall⟩ := ih c
      have hbc : b.SemanticVersion.Compare c.SemanticVersion ≤ 0 :=
        Semver.compare_le_of_gt h1
      refine ⟨r, hr, Semver.compare_le_trans hbc hcr, ?_⟩
      intro d hd
      rcases List.mem_cons.mp hd with h | h
      · subst h
        exact hcr
      · exact hall d h
    · rw [if_neg h1]
      by_cases h2 : c.SemanticVersion.Compare b.SemanticVersion = 0 ∧
          b.SemanticVersion.PreRelease ≠ "" ∧ c.SemanticVersion.PreRelease = ""
      · rw [if_pos h2]
        obtain ⟨r, hr, hcr, hall⟩ := ih c
        have hbc : b.SemanticVersion.Compare c.SemanticVersion ≤ 0 :=
          Semver.compare_le_of_eq_zero h2.1
        refine ⟨r, hr, Semver.compare_le_trans hbc hcr, ?_⟩
        intro d hd
        rcases List.mem_cons.mp hd with h | h
        · subst h
          exact hcr
        · exact hall d h
      · rw [if_neg h2]
        obtain ⟨r, hr, hbr, hall⟩ := ih b
        have hcb : c.SemanticVersion.Compare b.SemanticVersion ≤ 0 :=
          Semver.compare_le_of_not_gt h1
        refine ⟨r, hr, hbr, ?_⟩
        intro d hd
        rcases List.mem_cons.mp hd with h | h
        · subst h
          exact Semver.compare_le_trans hcb hbr
        · exact hall d h

end Calc

/-! ### Prefix and search lemmas -/

theorem charsLeadWith_iff {p l : List Char} :
    charsLeadWith p l = true ↔ ∃ t, l = p ++ t := by
  induction p generalizing l with
  | nil => simp [charsLeadWith]
  | cons a p ih =>
    cases l with
    | nil =>
      simp [charsLeadWith]
    | cons b l =>
      simp only [charsLeadWith, Bool.and_eq_true, decide_eq_true_eq, ih]
      constructor
      · rintro ⟨rfl, t, rfl⟩
        exact ⟨t, rfl⟩
      · rintro ⟨t, ht⟩
        injection ht with h1 h2
        exact ⟨h1.symm, t, h2⟩

/-! ### Commit-message analysis lemmas -/

namespace Git

theorem isMajorTrigger_of_featBang {m : String}
    (h : strStartsWith m "feat!:" = true) : isMajorTrigger m = true := by
  obtain ⟨t, ht⟩ := charsLeadWith_iff.mp h
  have hlower : lowerChars m = "feat!:".toList ++ t.map Char.toLower := by
    unfold lowerChars
    rw [ht, List.map_append]
    rfl
  have hbreak : conventionalBreakingPat (lowerChars m) = true := by
    rw [hlower]
    unfold conventionalBreakingPat
    simp [charsLeadWith]
  unfold isMajorTrigger
  rw [hbreak]
  simp

theorem detectLoop_major :
    ∀ (msgs : List String) (inc : IncrementType),
      (∃ m ∈ msgs, isMajorTrigger m = true) → detectLoop msgs inc = .major := by
  intro msgs
  induction msgs with
  | nil =>
    rintro inc ⟨m, hm, _⟩
    exact absurd hm (List.not_mem_nil m)
  | cons a rest ih =>
    rintro inc ⟨m, hm, hmaj⟩
    unfold detectLoop
    by_cases ha : isMajorTrigger a = true
    · rw [if_pos ha]
    · rw [if_neg ha]
      have hmem : m ∈ rest := by
        rcases List.mem_cons.mp hm with h | h
        · subst h
          exact absurd hmaj ha
        · exact h
      by_cases hb : isMinorTrigger a = true
      · rw [if_pos hb]
        exact ih _ ⟨m, hmem, hmaj⟩
      · rw [if_neg hb]
        exact ih _ ⟨m, hmem, hmaj⟩

theorem detectLoop_stay_minor :
    ∀ msgs : List String, (∀ m ∈ msgs, isMajorTrigger m = false) →
      detectLoop msgs .minor = .minor := by
  intro msgs
  induction msgs with
  | nil => intro _; rfl
  | cons a rest ih =>
    intro hall
    have ha : isMajorTrigger a = false := hall a (List.mem_cons_self a rest)
    have hrest := fun m hm => hall m (List.mem_cons_of_mem a hm)
    unfold detectLoop
    rw [ha]
    simp only [Bool.false_eq_true, if_false]
    by_cases hb : isMinorTrigger a = true
    · rw [if_pos hb]
      exact ih hrest
    · rw [if_neg hb]
      exact ih hrest

theorem detectLoop_minor :
    ∀ (msgs : List String) (inc : IncrementType), (inc = .patch ∨ inc = .minor) →
      (∀ m ∈ msgs, isMajorTrigger m = false) →
      (∃ m ∈ msgs, isMinorTrigger m = true) →
      detectLoop msgs inc = .minor := by
  intro msgs
  induction msgs with
  | nil =>
    rintro inc _ _ ⟨m, hm, _⟩
    exact absurd hm (List.not_mem_nil m)
  | cons a rest ih =>
    rintro inc hinc hall ⟨m, hm, hmin⟩
    have ha : isMajorTrigger a = false := hall a (List.mem_cons_self a rest)
    have hrest := fun x hx => hall x (List.mem_cons_of_mem a hx)
    unfold detectLoop
    rw [ha]
    simp only [Bool.false_eq_true, if_false]
    by_cases hb : isMinorTrigger a = true
    · rw [if_pos hb]
      exact detectLoop_stay_minor rest hrest
    · rw [if_neg hb]
      have hmem : m ∈ rest := by
        rcases List.mem_cons.mp hm with h | h
        · subst h
          exact absurd hmin hb
        · exact h
      exact ih inc hinc hrest ⟨m, hmem, hmin⟩

theorem detectLoop_id :
    ∀ (msgs : List String) (inc : IncrementType),
      (∀ m ∈ msgs, isMajorTrigger m = false ∧ isMinorTrigger m = false) →
      detectLoop msgs inc = inc := by
  intro msgs
  induction msgs with
  | nil => intro inc _; rfl
  | cons a rest ih =>
    intro inc hall
    obtain ⟨ha, hb⟩ := hall a (List.mem_cons_self a rest)
    unfold detectLoop
    rw [ha, hb]
    simp only [Bool.false_eq_true, if_false]
    exact ih inc fun x hx => hall x (List.mem_cons_of_mem a hx)

end Git

/-! ### Tagged-commit strategy lemmas -/

namespace Calc

theorem taggedCommit_props (sha : String → Except String String) :
    ∀ tags : List String,
      (∀ t ∈ tags, ∃ s, sha t = Except.ok s) →
      ((tags.filterMap fun tag =>
          match Semver.Parse tag with
          | none => none
          | some v =>
            match sha tag with
            | .error _ => none
            | .ok s =>
              some (⟨v, "Tag '" ++ tag ++ "'", true, s⟩ : BaseVersion)).length =
        tags.countP fun t => (Semver.Parse t).isSome) ∧
      (∀ bv ∈ tags.filterMap fun tag =>
          match Semver.Parse tag with
          | none => none
          | some v =>
            match sha tag with
            | .error _ => none
            | .ok s =>
              some (⟨v, "Tag '" ++ tag ++ "'", true, s⟩ : BaseVersion),
        bv.ShouldIncrement = true ∧
          ∃ t ∈ tags, Semver.Parse t = some bv.SemanticVersion ∧
            sha t = Except.ok bv.BaseVersionSource) ∧
      (∀ t ∈ tags, (Semver.Parse t).isSome = true →
        ∃ bv ∈ tags.filterMap fun tag =>
            match Semver.Parse tag with
            | none => none
            | some v =>
              match sha tag with
              | .error _ => none
              | .ok s =>
                some (⟨v, "Tag '" ++ tag ++ "'", true, s⟩ : BaseVersion),
          Semver.Parse t = some bv.SemanticVersion ∧
            sha t = Except.ok bv.BaseVersionSource) := by
  intro tags
  induction tags with
  | nil =>
    intro _
    refine ⟨rfl, by simp, by simp⟩
  | cons tag rest ih =>
    intro h
    have htag := h tag (List.mem_cons_self tag rest)
    have hrest := fun t ht => h t (List.mem_cons_of_mem tag ht)
    obtain ⟨hlen, hmem, hper⟩ := ih hrest
    cases hp : Semver.Parse tag with
    | none =>
      refine ⟨?_, ?_, ?_⟩
      · simp only [List.filterMap_cons, hp, List.countP_cons, hlen, Option.isSome_none]
        simp
      · intro bv hbv
        simp only [List.filterMap_cons, hp] at hbv
        obtain ⟨hinc, t, ht, hpt, hst⟩ := hmem bv hbv
        exact ⟨hinc, t, List.mem_cons_of_mem tag ht, hpt, hst⟩
      · intro t ht hsome
        rcases List.mem_cons.mp ht with hteq | htr
        · subst hteq
          rw [hp] at hsome
          simp at hsome
        · obtain ⟨bv, hbv, hpt, hst⟩ := hper t htr hsome
          refine ⟨bv, ?_, hpt, hst⟩
          simp only [List.filterMap_cons, hp]
          exact hbv
    | some v =>
      obtain ⟨s, hs⟩ := htag
      refine ⟨?_, ?_, ?_⟩
      · simp only [List.filterMap_cons, hp, hs, List.countP_cons, List.length_cons,
          hlen, Option.isSome_some]
        simp
      · intro bv hbv
        simp only [List.filterMap_cons, hp, hs, List.mem_cons] at hbv
        rcases hbv with hbv | hbv
        · subst hbv
          exact ⟨rfl, tag, List.mem_cons_self tag rest, hp, hs⟩
        · obtain ⟨hinc, t, ht, hpt, hst⟩ := hmem bv hbv
          exact ⟨hinc, t, List.mem_cons_of_mem tag ht, hpt, hst⟩
      · intro t ht _
        rcases List.mem_cons.mp ht with hteq | htr
        · subst hteq
          refine ⟨⟨v, "Tag '" ++ t ++ "'", true, s⟩, ?_, hp, hs⟩
          simp only [List.filterMap_cons, hp, hs]
          exact List.mem_cons_self _ _
        · obtain ⟨bv, hbv, hpt, hst⟩ := hper t htr (by assumption)
          refine ⟨bv, ?_, hpt, hst⟩
          simp only [List.filterMap_cons, hp, hs]
          exact List.mem_cons_of_mem _ hbv

/-! ### Strategy-manager error propagation -/

theorem runStrategies_first_error (ctx : VersionContext) :
    ∀ (pre : List Nat) (s : Nat) (rest : List Nat)
      (f : VersionContext → Except String (List BaseVersion)) (e : String),
      (∀ t ∈ pre, ctx.Strategies &&& t ≠ 0 →
        ∀ g, strategyFor t = some g → ∃ vs, g ctx = .ok vs) →
      ctx.Strategies &&& s ≠ 0 →
      strategyFor s = some f →
      f ctx = .error e →
      runStrategies (pre ++ s :: rest) ctx =
        .error ("strategy " ++ strategyName s ++ " failed: " ++ e) := by
  intro pre
  induction pre with
  | nil =>
    intro s rest f e _ hs hf he
    rw [List.nil_append]
    unfold runStrategies
    simp [hs, hf, he]
  | cons t pre ih =>
    intro s rest f e hpre hs hf he
    have hrest := fun x hx => hpre x (List.mem_cons_of_mem t hx)
    rw [List.cons_append]
    unfold runStrategies
    by_cases ht : ctx.Strategies &&& t ≠ 0
    · rw [if_pos ht]
      cases hg : strategyFor t with
      | none =>
        exact ih s rest f e hrest hs hf he
      | some g =>
        obtain ⟨vs, hvs⟩ := hpre t (List.mem_cons_self t pre) ht g hg
        simp only [hvs, ih s rest f e hrest hs hf he]
    · rw [if_neg ht]
      exact ih s rest f e hrest hs hf he

/-! ### Release-name extraction lemmas -/

theorem getBranchType_release {branch : String}
    (h : getBranchType branch GitFlow = Release) :
    strStartsWith branch "release/" = true := by
  unfold getBranchType at h
  rw [if_pos rfl] at h
  split_ifs at h <;>
    first
      | assumption
      | exact absurd h (by decide)

theorem splitOnChar_ne_nil (sep : Char) : ∀ l, splitOnChar sep l ≠ [] := by
  intro l
  cases l with
  | nil => simp [splitOnChar]
  | cons c rest =>
    unfold splitOnChar
    cases h : splitOnChar sep rest with
    | nil => simp
    | cons s ss => split_ifs <;> simp

theorem splitOnChar_release (t : List Char) :
    splitOnChar '/' ("release/".toList ++ t) =
      "release".toList :: splitOnChar '/' t := by
  obtain ⟨s, ss, hss⟩ : ∃ s ss, splitOnChar '/' t = s :: ss := by
    cases h : splitOnChar '/' t with
    | nil => exact absurd h (splitOnChar_ne_nil '/' t)
    | cons s ss => exact ⟨s, ss, rfl⟩
  show splitOnChar '/' ('r' :: 'e' :: 'l' :: 'e' :: 'a' :: 's' :: 'e' :: '/' :: t) = _
  simp [splitOnChar, hss]

theorem sanitize_asString_ne {s : List Char} (h : s ≠ []) :
    Semver.SanitizeBranchName s.asString ≠ "" := by
  unfold Semver.SanitizeBranchName
  rw [List.toList_asString]
  intro hc
  rw [show ("" : String) = List.asString [] from rfl, List.asString_inj] at hc
  exact h (List.map_eq_nil.mp hc)

theorem afterLastDash_some_ne {seg s : List Char}
    (h : afterLastDash seg = some s) : s ≠ [] := by
  unfold afterLastDash at h
  split_ifs at h with h1 h2
  injection h with h
  subst h
  assumption

/-- `extractReleaseName` on a `release/`-prefixed branch computes the
sanitized text after the last dash of the trailing segment (or `""` when
there is none). -/
theorem extractReleaseName_spec {branch : String}
    (h : strStartsWith branch "release/" = true) :
    extractReleaseName branch =
      (match afterLastDash (lastSegment branch) with
       | some s => Semver.SanitizeBranchName s.asString
       | none => "") := by
  obtain ⟨t, ht⟩ := charsLeadWith_iff.mp h
  unfold extractReleaseName lastSegment
  rw [ht, splitOnChar_release]
  have hlen : 1 < ("release".toList :: splitOnChar '/' t).length := by
    have := List.length_pos.mpr (splitOnChar_ne_nil '/' t)
    simp only [List.length_cons]
    omega
  rw [if_pos hlen]
  unfold afterLastDash
  by_cases hc : (("release".toList :: splitOnChar '/' t).getLastD []).contains '-'
  · rw [if_pos hc, if_pos hc]
    by_cases hsuf : ((("release".toList :: splitOnChar '/' t).getLastD
        []).reverse.takeWhile fun c => decide (c ≠ '-')).reverse = []
    · rw [if_pos hsuf, if_pos hsuf]
    · rw [if_neg hsuf, if_neg hsuf]
  · rw [if_neg hc, if_neg hc]

end Calc

/-! ### `find?` first-match lemma -/

theorem find?_first {α : Type} (p : α → Bool) :
    ∀ (l1 : List α) (x : α) (l2 : List α), p x = true →
      (∀ y ∈ l1, p y = false) → (l1 ++ x :: l2).find? p = some x := by
  intro l1
  induction l1 with
  | nil =>
    intro x l2 hx _
    simp [List.find?_cons_of_pos _ hx]
  | cons a l ih =>
    intro x l2 hx hall
    have ha : p a = false := hall a (List.mem_cons_self a l)
    rw [List.cons_append, List.find?_cons_of_neg _ (by rw [ha]; simp)]
    exact ih x l2 hx fun y hy => hall y (List.mem_cons_of_mem a hy)

/-! ## The claims -/

/-- Claim C1 (amended): under the max-selection of `CalculateVersion`,
an explicit-override candidate does not always win: whenever some other
candidate (such as one from a tag) compares strictly greater, the
selected base version is at least that candidate's version and is not
the override's.  (The original claim — that the override 2.0.0 always
wins against a tag 5.0.0 — is refuted by
`spec_C1_counterexample`.) -/
theorem spec_C1 :
    ∀ (bvs : List Calc.BaseVersion) (o t : Calc.BaseVersion),
      o ∈ bvs → t ∈ bvs →
      o.SemanticVersion.Compare t.SemanticVersion < 0 →
      ∃ sel, Calc.selectHighest bvs = some sel ∧
        t.SemanticVersion.Compare sel.SemanticVersion ≤ 0 ∧
        sel.SemanticVersion ≠ o.SemanticVersion := by
  intro bvs o t ho ht hot
  obtain ⟨b, l, rfl⟩ : ∃ b l, bvs = b :: l := by
    cases bvs with
    | nil => exact absurd ho (List.not_mem_nil o)
    | cons b l => exact ⟨b, l, rfl⟩
  obtain ⟨r, hr, hbr, hall⟩ := Calc.selectHighest_sound l b
  have hmax : ∀ c ∈ b :: l, c.SemanticVersion.Compare r.SemanticVersion ≤ 0 := by
    intro c hc
    rcases List.mem_cons.mp hc with h | h
    · subst h
      exact hbr
    · exact hall c h
  have htr : t.SemanticVersion.Compare r.SemanticVersion ≤ 0 := hmax t ht
  have hor : o.SemanticVersion.Compare r.SemanticVersion < 0 :=
    Semver.compare_lt_of_lt_of_le hot htr
  refine ⟨r, hr, htr, ?_⟩
  intro he
  rw [← he, Semver.compare_self] at hor
  omega

/-- Claim C1, counterexample to the original statement: with the
explicit override `2.0.0` and the reachable tag `v5.0.0` contributing
simultaneously, the strategy pool is `[2.0.0, 5.0.0, 0.0.0]`, selection
picks the tag candidate `5.0.0` (not the override), and the full
`CalculateVersion` run emits `5.0.1+build` — the override silently loses
under max-selection. -/
theorem spec_C1_counterexample :
    Calc.smGetBaseVersions (Calc.calcContext ⟨repoTag5, cfgEmpty⟩ "main" "2.0.0") =
      .ok [bvOverride, bvTag5, bvZero] ∧
    Calc.selectHighest [bvOverride, bvTag5, bvZero] = some bvTag5 ∧
    Calc.CalculateVersion ⟨repoTag5, cfgEmpty⟩ "main" Calc.GitFlow "" "2.0.0" =
      .ok ⟨5, 0, 1, "", "0+abc"⟩ ∧
    bvTag5.SemanticVersion ≠ bvOverride.SemanticVersion :=
  ⟨rfl, rfl, rfl, by decide⟩

/-- Claim C1, witness for the amended statement at the concrete pool of
the scenario. -/
theorem spec_C1_witness :
    bvOverride ∈ ([bvOverride, bvTag5, bvZero] : List Calc.BaseVersion) ∧
    bvTag5 ∈ ([bvOverride, bvTag5, bvZero] : List Calc.BaseVersion) ∧
    bvOverride.SemanticVersion.Compare bvTag5.SemanticVersion < 0 ∧
    (∃ sel, Calc.selectHighest [bvOverride, bvTag5, bvZero] = some sel ∧
      bvTag5.SemanticVersion.Compare sel.SemanticVersion ≤ 0 ∧
      sel.SemanticVersion ≠ bvOverride.SemanticVersion) :=
  ⟨by decide, by decide, by decide,
    spec_C1 [bvOverride, bvTag5, bvZero] bvOverride bvTag5
      (by decide) (by decide) (by decide)⟩

/-- Claim C2: for every non-empty candidate pool, both selectors (the
manager's `FindBestBaseVersion` and the inline loop of
`CalculateVersion`) pick a candidate whose `SemanticVersion` compares
greater than or equal to every other candidate's, and at equal
major/minor/patch a candidate without a pre-release label is preferred
over one with a label (the selected candidate has no label whenever a
label-free candidate with the same numeric triple is in the pool). -/
theorem spec_C2 :
    ∀ bvs : List Calc.BaseVersion, bvs ≠ [] →
      (∃ best, Calc.FindBestBaseVersion bvs = some best ∧
        (∀ c ∈ bvs, c.SemanticVersion.Compare best.SemanticVersion ≤ 0) ∧
        (∀ c ∈ bvs,
          c.SemanticVersion.Major = best.SemanticVersion.Major →
          c.SemanticVersion.Minor = best.SemanticVersion.Minor →
          c.SemanticVersion.Patch = best.SemanticVersion.Patch →
          c.SemanticVersion.PreRelease = "" →
          best.SemanticVersion.PreRelease = "")) ∧
      (∃ sel, Calc.selectHighest bvs = some sel ∧
        (∀ c ∈ bvs, c.SemanticVersion.Compare sel.SemanticVersion ≤ 0) ∧
        (∀ c ∈ bvs,
          c.SemanticVersion.Major = sel.SemanticVersion.Major →
          c.SemanticVersion.Minor = sel.SemanticVersion.Minor →
          c.SemanticVersion.Patch = sel.SemanticVersion.Patch →
          c.SemanticVersion.PreRelease = "" →
          sel.SemanticVersion.PreRelease = "")) := by
  intro bvs hne
  obtain ⟨b, l, rfl⟩ : ∃ b l, bvs = b :: l := by
    cases bvs with
    | nil => exact absurd rfl hne
    | cons b l => exact ⟨b, l, rfl⟩
  constructor
  · obtain ⟨r, hr, hbr, hall⟩ := Calc.findBest_sound l b
    have hmax : ∀ c ∈ b :: l, c.SemanticVersion.Compare r.SemanticVersion ≤ 0 := by
      intro c hc
      rcases List.mem_cons.mp hc with h | h
      · subst h
        exact hbr
      · exact hall c h
    refine ⟨r, hr, hmax, ?_⟩
    intro c hc h1 h2 h3 h4
    by_contra hpre
    have hvlt : Semver.VLt r.SemanticVersion c.SemanticVersion :=
      Or.inr ⟨h1.symm, Or.inr ⟨h2.symm, Or.inr ⟨h3.symm, Or.inl ⟨hpre, h4⟩⟩⟩⟩
    have hone := Semver.compare_eq_one_of_vlt hvlt
    have := hmax c hc
    omega
  · obtain ⟨r, hr, hbr, hall⟩ := Calc.selectHighest_sound l b
    have hmax : ∀ c ∈ b :: l, c.SemanticVersion.Compare r.SemanticVersion ≤ 0 := by
      intro c hc
      rcases List.mem_cons.mp hc with h | h
      · subst h
        exact hbr
      · exact hall c h
    refine ⟨r, hr, hmax, ?_⟩
    intro c hc h1 h2 h3 h4
    by_contra hpre
    have hvlt : Semver.VLt r.SemanticVersion c.SemanticVersion :=
      Or.inr ⟨h1.symm, Or.inr ⟨h2.symm, Or.inr ⟨h3.symm, Or.inl ⟨hpre, h4⟩⟩⟩⟩
    have hone := Semver.compare_eq_one_of_vlt hvlt
    have := hmax c hc
    omega

/-- Claim C2, witness at a concrete two-candidate pool. -/
theorem spec_C2_witness :
    ([bvOverride, bvTag5] : List Calc.BaseVersion) ≠ [] ∧
    ((∃ best, Calc.FindBestBaseVersion [bvOverride, bvTag5] = some best ∧
      (∀ c ∈ ([bvOverride, bvTag5] : List Calc.BaseVersion),
        c.SemanticVersion.Compare best.SemanticVersion ≤ 0) ∧
      (∀ c ∈ ([bvOverride, bvTag5] : List Calc.BaseVersion),
        c.SemanticVersion.Major = best.SemanticVersion.Major →
        c.SemanticVersion.Minor = best.SemanticVersion.Minor →
        c.SemanticVersion.Patch = best.SemanticVersion.Patch →
        c.SemanticVersion.PreRelease = "" →
        best.SemanticVersion.PreRelease = "")) ∧
    (∃ sel, Calc.selectHighest [bvOverride, bvTag5] = some sel ∧
      (∀ c ∈ ([bvOverride, bvTag5] : List Calc.BaseVersion),
        c.SemanticVersion.Compare sel.SemanticVersion ≤ 0) ∧
      (∀ c ∈ ([bvOverride, bvTag5] : List Calc.BaseVersion),
        c.SemanticVersion.Major = sel.SemanticVersion.Major →
        c.SemanticVersion.Minor = sel.SemanticVersion.Minor →
        c.SemanticVersion.Patch = sel.SemanticVersion.Patch →
        c.SemanticVersion.PreRelease = "" →
        sel.SemanticVersion.PreRelease = ""))) :=
  ⟨by decide, spec_C2 [bvOverride, bvTag5] (by decide)⟩

/-- Claim C3: branch classification resolves a policy in the order
exact name match, then the first policy whose regex matches (per the
modelled enumeration order of the policy map), then the first
`"<policyName>/"` prefix match, then the built-in default policy — whose
increment is `"Patch"` and whose label template is `"{BranchName}"`.
Classification is total by construction (`GetBranchConfiguration` is a
total function into `BranchConfiguration`; the last conjunct names the
absorbing default). -/
theorem spec_C3 :
    ∀ (c : Config.Config) (branchName : String),
      (∀ cfg, Config.lookupBranch c.Branches branchName = some cfg →
        Config.GetBranchConfiguration c branchName = cfg) ∧
      (Config.lookupBranch c.Branches branchName = none →
        ∀ (l1 : List (String × Config.BranchConfiguration)) nm cfg l2,
          c.Branches = l1 ++ (nm, cfg) :: l2 →
          (cfg.Regex != "" && Config.matchesRegex branchName cfg.Regex) = true →
          (∀ q ∈ l1,
            (q.2.Regex != "" && Config.matchesRegex branchName q.2.Regex) = false) →
          Config.GetBranchConfiguration c branchName = cfg) ∧
      (Config.lookupBranch c.Branches branchName = none →
        (∀ q ∈ c.Branches,
          (q.2.Regex != "" && Config.matchesRegex branchName q.2.Regex) = false) →
        ∀ (l1 : List (String × Config.BranchConfiguration)) nm cfg l2,
          c.Branches = l1 ++ (nm, cfg) :: l2 →
          strStartsWith branchName (nm ++ "/") = true →
          (∀ q ∈ l1, strStartsWith branchName (q.1 ++ "/") = false) →
          Config.GetBranchConfiguration c branchName = cfg) ∧
      (Config.lookupBranch c.Branches branchName = none →
        (∀ q ∈ c.Branches,
          (q.2.Regex != "" && Config.matchesRegex branchName q.2.Regex) = false) →
        (∀ q ∈ c.Branches, strStartsWith branchName (q.1 ++ "/") = false) →
        Config.GetBranchConfiguration c branchName =
          Config.defaultBranchConfiguration) ∧
      Config.defaultBranchConfiguration.Increment = "Patch" ∧
      Config.defaultBranchConfiguration.Label = "{BranchName}" := by
  intro c branchName
  refine ⟨?_, ?_, ?_, ?_, rfl, rfl⟩
  · intro cfg h
    simp only [Config.GetBranchConfiguration, h]
  · intro hnone l1 nm cfg l2 hbr hx hall
    have hfind : (c.Branches.find? fun q =>
        q.2.Regex != "" && Config.matchesRegex branchName q.2.Regex) =
        some (nm, cfg) := by
      rw [hbr]
      exact find?_first _ l1 (nm, cfg) l2 hx hall
    simp only [Config.GetBranchConfiguration, hnone, hfind]
  · intro hnone hregex l1 nm cfg l2 hbr hx hall
    have hfind1 : (c.Branches.find? fun q =>
        q.2.Regex != "" && Config.matchesRegex branchName q.2.Regex) = none := by
      rw [List.find?_eq_none]
      intro q hq
      rw [hregex q hq]
      simp
    have hfind2 : (c.Branches.find? fun q =>
        strStartsWith branchName (q.1 ++ "/")) = some (nm, cfg) := by
      rw [hbr]
      exact find?_first _ l1 (nm, cfg) l2 hx hall
    simp only [Config.GetBranchConfiguration, hnone, hfind1, hfind2]
  · intro hnone hregex hpfx
    have hfind1 : (c.Branches.find? fun q =>
        q.2.Regex != "" && Config.matchesRegex branchName q.2.Regex) = none := by
      rw [List.find?_eq_none]
      intro q hq
      rw [hregex q hq]
      simp
    have hfind2 : (c.Branches.find? fun q =>
        strStartsWith branchName (q.1 ++ "/")) = none := by
      rw [List.find?_eq_none]
      intro q hq
      rw [hpfx q hq]
      simp
    simp only [Config.GetBranchConfiguration, hnone, hfind1, hfind2]

/-- Claim C3, witness: with an empty policy map every branch name falls
through to the built-in default policy. -/
theorem spec_C3_witness :
    Config.lookupBranch cfgEmpty.Branches "random-branch" = none ∧
    Config.GetBranchConfiguration cfgEmpty "random-branch" =
      Config.defaultBranchConfiguration ∧
    Config.defaultBranchConfiguration.Increment = "Patch" ∧
    Config.defaultBranchConfiguration.Label = "{BranchName}" :=
  ⟨rfl,
    (spec_C3 cfgEmpty "random-branch").2.2.2.1 rfl (by simp [cfgEmpty])
      (by simp [cfgEmpty]),
    (spec_C3 cfgEmpty "random-branch").2.2.2.2.1,
    (spec_C3 cfgEmpty "random-branch").2.2.2.2.2⟩

/-- Claim C4: commit-message analysis is severity-maximising and
order-independent: any sequence containing a `feat!:`-headed message
yields `major` (in particular together with a `fix:` message, in either
order); a major trigger anywhere dominates, minor triggers dominate the
default, and with no triggers the result is `patch`. -/
theorem spec_C4 :
    ∀ msgs : List String,
      ((∃ m ∈ msgs, strStartsWith m "fix:" = true) →
        (∃ m ∈ msgs, strStartsWith m "feat!:" = true) →
        Git.DetectVersionIncrementFromMessages msgs = .major) ∧
      ((∃ m ∈ msgs, Git.isMajorTrigger m = true) →
        Git.DetectVersionIncrementFromMessages msgs = .major) ∧
      ((∀ m ∈ msgs, Git.isMajorTrigger m = false) →
        (∃ m ∈ msgs, Git.isMinorTrigger m = true) →
        Git.DetectVersionIncrementFromMessages msgs = .minor) ∧
      ((∀ m ∈ msgs, Git.isMajorTrigger m = false ∧ Git.isMinorTrigger m = false) →
        Git.DetectVersionIncrementFromMessages msgs = .patch) := by
  intro msgs
  refine ⟨?_, ?_, ?_, ?_⟩
  · rintro _ ⟨m, hm, hf⟩
    exact Git.detectLoop_major msgs .patch ⟨m, hm, Git.isMajorTrigger_of_featBang hf⟩
  · intro h
    exact Git.detectLoop_major msgs .patch h
  · intro h1 h2
    exact Git.detectLoop_minor msgs .patch (Or.inl rfl) h1 h2
  · intro h
    exact Git.detectLoop_id msgs .patch h

/-- Claim C4, witness: a `feat!:` message after a `fix:` message (and
the reverse order) yields `major`. -/
theorem spec_C4_witness :
    Git.DetectVersionIncrementFromMessages ["fix: a", "feat!: b"] = .major ∧
    Git.DetectVersionIncrementFromMessages ["feat!: b", "fix: a"] = .major :=
  ⟨(spec_C4 ["fix: a", "feat!: b"]).1 (by decide) (by decide),
    (spec_C4 ["feat!: b", "fix: a"]).1 (by decide) (by decide)⟩

/-- Claim C5: when an enabled strategy is the first (in priority order)
to fail, the strategy manager aborts with that error wrapped with the
failing strategy's name — no candidates from the partial pool survive —
and `CalculateVersion` then aborts without emitting a version, wrapping
the manager's error. -/
theorem spec_C5 :
    (∀ (ctx : Calc.VersionContext) (pre : List Nat) (s : Nat) (rest : List Nat)
      (f : Calc.VersionContext → Except String (List Calc.BaseVersion)) (e : String),
      Calc.strategyOrder = pre ++ s :: rest →
      (∀ t ∈ pre, ctx.Strategies &&& t ≠ 0 →
        ∀ g, Calc.strategyFor t = some g → ∃ vs, g ctx = .ok vs) →
      ctx.Strategies &&& s ≠ 0 →
      Calc.strategyFor s = some f →
      f ctx = .error e →
      Calc.smGetBaseVersions ctx =
        .error ("strategy " ++ Calc.strategyName s ++ " failed: " ++ e)) ∧
    (∀ (c : Calc.Calculator) (branch workflow forceIncrement nextVersion e : String),
      Calc.smGetBaseVersions
          (Calc.calcContext c (if branch = "" then c.repo.currentBranch else branch)
            nextVersion) = .error e →
      Calc.CalculateVersion c branch workflow forceIncrement nextVersion =
        .error ("failed to get base versions: " ++ e)) := by
  constructor
  · intro ctx pre s rest f e horder hpre hs hf he
    have hrun := Calc.runStrategies_first_error ctx pre s rest f e hpre hs hf he
    rw [← horder] at hrun
    unfold Calc.smGetBaseVersions
    rw [hrun]
  · intro c branch workflow forceIncrement nextVersion e h
    unfold Calc.CalculateVersion
    simp only [h]

/-- Claim C5, witness: with merge-message tracking enabled and a failing
commit-history query, the `MergeMessage` strategy is the first enabled
strategy to fail, the manager reports it by name, and the whole
resolution aborts. -/
theorem spec_C5_witness :
    Calc.smGetBaseVersions (Calc.calcContext ⟨repoHistFail, cfgTrackMM⟩ "main" "2.0.0") =
      .error "strategy MergeMessage failed: failed to get commit history: boom" ∧
    Calc.CalculateVersion ⟨repoHistFail, cfgTrackMM⟩ "main" "gitflow" "" "2.0.0" =
      .error
        "failed to get base versions: strategy MergeMessage failed: failed to get commit history: boom" := by
  have h1 := spec_C5.1 (Calc.calcContext ⟨repoHistFail, cfgTrackMM⟩ "main" "2.0.0")
    [Calc.ConfiguredNextVersion, Calc.VersionInBranchName, Calc.TaggedCommit,
      Calc.TrackReleaseBranches]
    Calc.MergeMessage [Calc.Mainline, Calc.Fallback]
    Calc.mergeMessageGetBaseVersions "failed to get commit history: boom"
    rfl
    (by
      intro t ht hen g hg
      fin_cases ht
      · rw [show Calc.strategyFor Calc.ConfiguredNextVersion =
            some Calc.configuredNextVersionGetBaseVersions from rfl] at hg
        cases hg
        exact ⟨_, rfl⟩
      · exact absurd (by decide) hen
      · rw [show Calc.strategyFor Calc.TaggedCommit =
            some Calc.taggedCommitGetBaseVersions from rfl] at hg
        cases hg
        exact ⟨_, rfl⟩
      · exact absurd (by decide) hen)
    (by decide)
    rfl
    rfl
  exact ⟨h1, spec_C5.2 ⟨repoHistFail, cfgTrackMM⟩ "main" "gitflow" "" "2.0.0" _ h1⟩

/-- Claim C6: the `TaggedCommit` strategy never returns an error; given
that the repository resolves each reachable tag's commit, it returns
exactly one candidate per tag that parses as a semantic version — with
`ShouldIncrement` true and the tag's commit as provenance — and silently
skips every unparsable tag. -/
theorem spec_C6 :
    ∀ ctx : Calc.VersionContext,
      (∀ t ∈ ctx.Repository.tagsOnCurrentBranch,
        ∃ s, ctx.Repository.commitSHAForTag t = Except.ok s) →
      ∃ l, Calc.taggedCommitGetBaseVersions ctx = .ok l ∧
        l.length = (ctx.Repository.tagsOnCurrentBranch.countP fun t =>
          (Semver.Parse t).isSome) ∧
        (∀ bv ∈ l, bv.ShouldIncrement = true ∧
          ∃ t ∈ ctx.Repository.tagsOnCurrentBranch,
            Semver.Parse t = some bv.SemanticVersion ∧
            ctx.Repository.commitSHAForTag t = Except.ok bv.BaseVersionSource) ∧
        (∀ t ∈ ctx.Repository.tagsOnCurrentBranch, (Semver.Parse t).isSome = true →
          ∃ bv ∈ l, Semver.Parse t = some bv.SemanticVersion ∧
            ctx.Repository.commitSHAForTag t = Except.ok bv.BaseVersionSource) := by
  intro ctx h
  obtain ⟨hlen, hmem, hper⟩ :=
    Calc.taggedCommit_props ctx.Repository.commitSHAForTag
      ctx.Repository.tagsOnCurrentBranch h
  exact ⟨_, rfl, hlen, hmem, hper⟩

/-- Claim C6, witness: one parsable tag `v1.2.3` and one unparsable tag
`junk` yield exactly one candidate and no error. -/
theorem spec_C6_witness :
    (∀ t ∈ ctxMixed.Repository.tagsOnCurrentBranch,
      ∃ s, ctxMixed.Repository.commitSHAForTag t = Except.ok s) ∧
    (∃ l, Calc.taggedCommitGetBaseVersions ctxMixed = .ok l ∧
      l.length = (ctxMixed.Repository.tagsOnCurrentBranch.countP fun t =>
        (Semver.Parse t).isSome) ∧
      (∀ bv ∈ l, bv.ShouldIncrement = true ∧
        ∃ t ∈ ctxMixed.Repository.tagsOnCurrentBranch,
          Semver.Parse t = some bv.SemanticVersion ∧
          ctxMixed.Repository.commitSHAForTag t = Except.ok bv.BaseVersionSource) ∧
      (∀ t ∈ ctxMixed.Repository.tagsOnCurrentBranch, (Semver.Parse t).isSome = true →
        ∃ bv ∈ l, Semver.Parse t = some bv.SemanticVersion ∧
          ctxMixed.Repository.commitSHAForTag t = Except.ok bv.BaseVersionSource)) :=
  ⟨fun t _ => ⟨"sha1", rfl⟩, spec_C6 ctxMixed fun t _ => ⟨"sha1", rfl⟩⟩

/-- Claim C7 (amended): for a Release-classified branch with positive
commit count the synthesizer sets build to `"<count>+<sha>"` and
pre-release to `"<tag>.<count>"`, where `<tag>` is the text after the
last `-` of the branch's trailing path segment **with every
non-alphanumeric character replaced by `-`** (the code sanitizes the
extracted text; the original claim omitted the sanitization, refuted by
`spec_C7_counterexample`), defaulting to `beta` when no such text
exists. -/
theorem spec_C7 :
    ∀ (v : Semver.Version) (branch : String) (count : Nat) (sha : String),
      Calc.getBranchType branch Calc.GitFlow = Calc.Release →
      0 < count →
      (Calc.applyBranchSpecificVersioning v branch Calc.Release count sha).Build =
        natReprS count ++ "+" ++ sha ∧
      (Calc.applyBranchSpecificVersioning v branch Calc.Release count sha).PreRelease =
        (match Calc.afterLastDash (Calc.lastSegment branch) with
         | some tagTxt =>
            Semver.SanitizeBranchName tagTxt.asString ++ "." ++ natReprS count
         | none => "beta." ++ natReprS count) := by
  intro v branch count sha hcls hcount
  have hpre : strStartsWith branch "release/" = true :=
    Calc.getBranchType_release hcls
  have hname := Calc.extractReleaseName_spec hpre
  unfold Calc.applyBranchSpecificVersioning
  rw [if_neg (by decide), if_neg (by decide), if_neg (by decide), if_pos rfl]
  refine ⟨rfl, ?_⟩
  simp only [if_pos hcount, hname]
  cases hald : Calc.afterLastDash (Calc.lastSegment branch) with
  | none =>
    simp
  | some s =>
    have hne := Calc.sanitize_asString_ne (Calc.afterLastDash_some_ne hald)
    simp [hne]

/-- Claim C7, counterexample to the original wording: on branch
`release/0.0.2-rc.1` the text after the last `-` of the trailing
segment is `rc.1`, so the claim predicts pre-release `rc.1.3`, but the
code sanitizes the extracted text and produces `rc-1.3`. -/
theorem spec_C7_counterexample :
    Calc.getBranchType "release/0.0.2-rc.1" Calc.GitFlow = Calc.Release ∧
    (Calc.applyBranchSpecificVersioning ⟨0, 0, 2, "", ""⟩ "release/0.0.2-rc.1"
      Calc.Release 3 "abc").PreRelease = "rc-1.3" ∧
    ("rc-1.3" : String) ≠ "rc.1.3" :=
  ⟨rfl, rfl, by decide⟩

/-- Claim C7, witness: the spec's own scenario — branch
`release/0.0.2-alpha`, 3 commits, short SHA `abc1234` — yields
pre-release `alpha.3` and build `3+abc1234`. -/
theorem spec_C7_witness :
    Calc.getBranchType "release/0.0.2-alpha" Calc.GitFlow = Calc.Release ∧
    0 < 3 ∧
    (Calc.applyBranchSpecificVersioning ⟨0, 0, 2, "", ""⟩ "release/0.0.2-alpha"
      Calc.Release 3 "abc1234").Build = natReprS 3 ++ "+" ++ "abc1234" ∧
    (Calc.applyBranchSpecificVersioning ⟨0, 0, 2, "", ""⟩ "release/0.0.2-alpha"
      Calc.Release 3 "abc1234").PreRelease =
      (match Calc.afterLastDash (Calc.lastSegment "release/0.0.2-alpha") with
       | some tagTxt => Semver.SanitizeBranchName tagTxt.asString ++ "." ++ natReprS 3
       | none => "beta." ++ natReprS 3) ∧
    Calc.applyBranchSpecificVersioning ⟨0, 0, 2, "", ""⟩ "release/0.0.2-alpha"
      Calc.Release 3 "abc1234" = ⟨0, 0, 2, "alpha.3", "3+abc1234"⟩ :=
  ⟨rfl, by decide,
    (spec_C7 ⟨0, 0, 2, "", ""⟩ "release/0.0.2-alpha" 3 "abc1234" rfl (by decide)).1,
    (spec_C7 ⟨0, 0, 2, "", ""⟩ "release/0.0.2-alpha" 3 "abc1234" rfl (by decide)).2,
    rfl⟩

/-- Claim C8: parsing the rendering of any `Version` whose pre-release
and build fields are drawn from the character sets accepted by the parse
grammar succeeds and recovers all five fields exactly. -/
theorem spec_C8 :
    ∀ v : Semver.Version,
      (∀ c ∈ v.PreRelease.toList, Semver.isPreReleaseChar c = true) →
      (∀ c ∈ v.Build.toList, Semver.isBuildChar c = true) →
      Semver.Parse v.toStr = some v :=
  fun v hp hb => Semver.Parse_toStr v hp hb

/-- Claim C8, witness at a concrete version with both optional
fields. -/
theorem spec_C8_witness :
    Semver.Parse (Semver.Version.toStr ⟨1, 2, 3, "alpha.7", "build-1"⟩) =
      some ⟨1, 2, 3, "alpha.7", "build-1"⟩ :=
  spec_C8 ⟨1, 2, 3, "alpha.7", "build-1"⟩ (by decide) (by decide)

/-- Claim C9: `Compare` is antisymmetric (`Compare a b = -Compare b a`)
and transitive on its nonpositive (less-or-equal) fragment. -/
theorem spec_C9 :
    ∀ a b c : Semver.Version,
      a.Compare b = -(b.Compare a) ∧
      (a.Compare b ≤ 0 → b.Compare c ≤ 0 → a.Compare c ≤ 0) := by
  intro a b c
  exact ⟨Semver.compare_antisymm a b, fun h1 h2 => Semver.compare_le_trans h1 h2⟩

/-- Claim C9, witness at concrete versions exercising the pre-release
tie-break and the numeric order. -/
theorem spec_C9_witness :
    ((⟨1, 0, 0, "alpha", ""⟩ : Semver.Version).Compare ⟨1, 0, 0, "", ""⟩ =
      -((⟨1, 0, 0, "", ""⟩ : Semver.Version).Compare ⟨1, 0, 0, "alpha", ""⟩)) ∧
    (⟨1, 0, 0, "alpha", ""⟩ : Semver.Version).Compare ⟨1, 2, 0, "", "x"⟩ ≤ 0 :=
  ⟨(spec_C9 ⟨1, 0, 0, "alpha", ""⟩ ⟨1, 0, 0, "", ""⟩ ⟨1, 2, 0, "", "x"⟩).1,
    (spec_C9 ⟨1, 0, 0, "alpha", ""⟩ ⟨1, 0, 0, "", ""⟩ ⟨1, 2, 0, "", "x"⟩).2
      (by decide) (by decide)⟩

/-- Claim C10: the branch-specific synthesizer only writes the
`PreRelease` and `Build` fields; `Major`, `Minor` and `Patch` are
unchanged for every branch name, branch type, commit count and SHA. -/
theorem spec_C10 :
    ∀ (v : Semver.Version) (branch branchType : String)
      (commitCount : Nat) (sha : String),
      (Calc.applyBranchSpecificVersioning v branch branchType commitCount sha).Major =
        v.Major ∧
      (Calc.applyBranchSpecificVersioning v branch branchType commitCount sha).Minor =
        v.Minor ∧
      (Calc.applyBranchSpecificVersioning v branch branchType commitCount sha).Patch =
        v.Patch := by
  intro v branch branchType commitCount sha
  unfold Calc.applyBranchSpecificVersioning
  split_ifs <;> exact ⟨rfl, rfl, rfl⟩

end Gitversion
